import Mathlib

/-!
Graph-Thereum: shortest paths with centrality accumulation.

A shallow embedding of `dijkstra` (src/algorithms/dijkstras.cpp) together with
the parts of the data model it drives (Edge, Vertex, Graph), and of
`compare_bc_pair` (src/utils/utils.cpp).

Conventions of the embedding.

* A `Vertex*` is the index of the vertex in `Graph.vertices`; an `Edge*` held in
  an incident-edge list is the edge record itself (the run never writes an edge).
* `uint64_t` values are natural numbers, and the one addition of the run is taken
  modulo `2 ^ 64`.
* The centrality accumulator is a `double` in the source. A run only ever adds
  accumulators to accumulators, starting from `0.0` and `1.0`, so every value is a
  non-negative whole number or `+infinity`; it is held as the natural number it
  denotes (`2 ^ 1024` standing for `+infinity`) and added with `doubleAdd`, the
  addition of IEEE-754 binary64 with rounding to nearest, ties to even.
* `std::priority_queue<Vertex*, vector<Vertex*>, VertexPointerComparator>` is the
  binary heap over a vector of the C++ standard library: `push` appends and sifts
  the new entry up, `pop` moves the last entry to the root hole, walks the hole
  down to a leaf along the preferred child and sifts the entry up again, `top` is
  the first slot. The comparator reads the *current* distance of the vertices.
* Reading `top()` of an empty queue is undefined behaviour; a run that does so
  stops with status `emptyQueueRead`.
-/

namespace GraphThereum

/-- Modulus of `uint64_t` arithmetic. -/
def UINT64_MOD : Nat := 2 ^ 64

/-- Modelled from the spec: the "infinite" distance sentinel which `Vertex::reset`
(vertex.cpp, not among the sources) stores, the largest `uint64_t`. -/
def INFINITE_DISTANCE : Nat := 2 ^ 64 - 1

/-- Edge record of include/core/edge.h (value is a `double` in the source; the run
never reads it and it is carried as a scaled integer). -/
structure Edge where
  source : Nat
  destination : Nat
  value : Int
  gas : Nat
  gasPrice : Nat
  wasExplored : Bool
  deriving DecidableEq, Repr

/-- Modelled from the spec: `Edge::getAdjacentVertex` (edge.cpp is not among the
sources): the destination when `start` is the source, else the source. -/
def Edge.getAdjacentVertex (e : Edge) (start : Nat) : Nat :=
  if start = e.source then e.destination else e.source

/-- Modelled from the spec: the `Vertex` class (vertex.h is not among the sources):
identity, incident edges and the traversal-scoped fields. The field `centrality` is the
value of the `double` accumulator, a non-negative whole number or `2 ^ 1024` for
`+infinity`. -/
structure Vertex where
  address : String
  incidentEdges : List Edge
  distance : Nat
  wasExplored : Bool
  parent : Option Nat
  centrality : Nat
  centralityParents : List Nat
  deriving DecidableEq, Repr

/-- Modelled from the spec: `Vertex::reset` restores the traversal-scoped fields and
leaves identity and incident edges alone. -/
def Vertex.reset (v : Vertex) : Vertex :=
  { v with distance := INFINITE_DISTANCE, wasExplored := false, parent := none,
           centrality := 0, centralityParents := [] }

/-- Modelled from the spec: `Vertex::setDistance`. -/
def Vertex.setDistance (v : Vertex) (d : Nat) : Vertex := { v with distance := d }

/-- Modelled from the spec: `Vertex::setParent`. -/
def Vertex.setParent (v : Vertex) (p : Nat) : Vertex := { v with parent := some p }

/-- Modelled from the spec: `Vertex::setExplored`. -/
def Vertex.setExplored (v : Vertex) (b : Bool) : Vertex := { v with wasExplored := b }

/-- The value that stands for the `double` `+infinity`. -/
def DOUBLE_INFINITY : Nat := 2 ^ 1024

/-- Number of low bits a whole number has beyond the 53 significant bits of a `double`
(the first argument bounds the recursion). -/
def excessBits : Nat → Nat → Nat
  | 0, _ => 0
  | fuel + 1, n => if n < 2 ^ 53 then 0 else excessBits fuel (n / 2) + 1

/-- The significand of the `double` nearest to the whole number `n` of at least 54 bits,
as a whole number of 53 or 54 bits: the bits beyond the first 53 are dropped, and one is
added when they are more than half a unit, or exactly half with an odd significand (ties
go to even). -/
def roundedSignificand (n : Nat) : Nat :=
  if n % 2 ^ excessBits 1024 n > 2 ^ (excessBits 1024 n - 1) ∨
      (n % 2 ^ excessBits 1024 n = 2 ^ (excessBits 1024 n - 1) ∧
        (n / 2 ^ excessBits 1024 n) % 2 = 1)
  then n / 2 ^ excessBits 1024 n + 1
  else n / 2 ^ excessBits 1024 n

/-- The `double` nearest to the whole number `n`, ties going to the even significand;
a result of `2 ^ 1024` or more is `+infinity`. -/
def roundToDouble (n : Nat) : Nat :=
  if n < 2 ^ 53 then n
  else if excessBits 1024 n > 971 ∨
      (excessBits 1024 n = 971 ∧ roundedSignificand n = 2 ^ 53) then DOUBLE_INFINITY
  else roundedSignificand n * 2 ^ excessBits 1024 n

/-- The sum `a + b` of two `double` values that are non-negative whole numbers or
`+infinity`, as the machine computes it: the exact sum, rounded. -/
def doubleAdd (a b : Nat) : Nat := roundToDouble (a + b)

/-- Modelled from the spec: `Vertex::incrementCentrality` adds to the accumulator, in
`double` arithmetic. -/
def Vertex.incrementCentrality (v : Vertex) (delta : Nat) : Vertex :=
  { v with centrality := doubleAdd v.centrality delta }

/-- Modelled from the spec: `Vertex::addCentralityParent`, insertion into a set. -/
def Vertex.addCentralityParent (v : Vertex) (p : Nat) : Vertex :=
  { v with centralityParents := if p ∈ v.centralityParents then v.centralityParents
                                else v.centralityParents ++ [p] }

/-- A vertex in its reset state with no identity: what a dangling pointer reads. -/
def Vertex.blank : Vertex :=
  { address := "", incidentEdges := [], distance := INFINITE_DISTANCE, wasExplored := false,
    parent := none, centrality := 0, centralityParents := [] }

/-- Modelled from the spec: the `Graph` class (graph.h is not among the sources): the
owned vertices and the finalized-order record of the latest run. -/
structure Graph where
  vertices : List Vertex
  distanceOrderedVertices : List Nat
  deriving DecidableEq, Repr

/-- Dereference of a `Vertex*`. -/
def Graph.vertexAt (g : Graph) (v : Nat) : Vertex := g.vertices.getD v Vertex.blank

/-- Write through a `Vertex*`. -/
def Graph.updateVertex (g : Graph) (v : Nat) (f : Vertex → Vertex) : Graph :=
  { g with vertices := g.vertices.set v (f (g.vertexAt v)) }

/-- Modelled from the spec: `Graph::resetDistanceOrderedVertices`. -/
def Graph.resetDistanceOrderedVertices (g : Graph) : Graph :=
  { g with distanceOrderedVertices := [] }

/-- Modelled from the spec: `Graph::pushDistanceOrderedVertex` appends. -/
def Graph.pushDistanceOrderedVertex (g : Graph) (v : Nat) : Graph :=
  { g with distanceOrderedVertices := g.distanceOrderedVertices ++ [v] }

/-- Every edge of every incident list has its two endpoints among the vertices. -/
def Graph.WellFormed (g : Graph) : Prop :=
  ∀ v ∈ g.vertices, ∀ e ∈ v.incidentEdges,
    e.source < g.vertices.length ∧ e.destination < g.vertices.length

instance (g : Graph) : Decidable g.WellFormed := by
  unfold Graph.WellFormed; infer_instance

/-- Modelled from the spec: the key of `VertexPointerComparator` (dijkstras.h is not
among the sources), the current distance of the vertex pointed to. -/
def Graph.key (g : Graph) (v : Nat) : Nat := (g.vertexAt v).distance

/-! The binary heap behind `std::priority_queue` -/

/-- Exchange of slots `i` and `j` of the heap vector. -/
def swapAt (c : List Nat) (i j : Nat) : List Nat :=
  if i < c.length ∧ j < c.length then (c.set i (c.getD j 0)).set j (c.getD i 0) else c

/-- The loop of `std::push_heap`: the entry at `hole` moves up while its parent
compares lower (has the larger key). -/
def siftUp (key : Nat → Nat) : Nat → Nat → List Nat → List Nat
  | 0, _, c => c
  | fuel + 1, hole, c =>
    if hole = 0 then c
    else if key (c.getD ((hole - 1) / 2) 0) > key (c.getD hole 0) then
      siftUp key fuel ((hole - 1) / 2) (swapAt c hole ((hole - 1) / 2))
    else c

/-- The queue operation `push`: `push_back` then `push_heap`. -/
def heapPush (key : Nat → Nat) (c : List Nat) (v : Nat) : List Nat :=
  siftUp key (c.length + 1) c.length (c ++ [v])

/-- The first loop of the heap adjustment of `std::pop_heap`: the hole walks down,
each time to the child that does not compare lower than its sibling. -/
def siftDown (key : Nat → Nat) : Nat → Nat → List Nat → Nat × List Nat
  | 0, hole, c => (hole, c)
  | fuel + 1, hole, c =>
    if hole < (c.length - 1) / 2 then
      let child :=
        if key (c.getD (2 * (hole + 1)) 0) > key (c.getD (2 * (hole + 1) - 1) 0)
        then 2 * (hole + 1) - 1 else 2 * (hole + 1)
      siftDown key fuel child (swapAt c hole child)
    else (hole, c)

/-- The step of the heap adjustment for a last inner node with a single child. -/
def lastChildStep (p : Nat × List Nat) : Nat × List Nat :=
  if p.2.length % 2 = 0 ∧ p.1 = (p.2.length - 2) / 2 then
    (2 * (p.1 + 1) - 1, swapAt p.2 p.1 (2 * (p.1 + 1) - 1))
  else p

/-- The queue operation `pop`: `pop_heap` then `pop_back`. -/
def heapPop (key : Nat → Nat) (c : List Nat) : List Nat :=
  if c.length ≤ 1 then []
  else
    let c1 := (c.set 0 (c.getLastD 0)).dropLast
    let p := lastChildStep (siftDown key c1.length 0 c1)
    siftUp key (p.1 + 1) p.1 p.2

/-- The queue operation `top`: the first slot of the vector. -/
def heapTop (c : List Nat) : Nat := c.headD 0

/-! The run -/

/-- How a run stands: still in the main loop, returned, or stopped at a `top()` of
the empty queue. -/
inductive RunStatus where
  | running
  | finished
  | emptyQueueRead
  deriving DecidableEq, Repr

/-- The graph, the priority queue and the status of a run. -/
structure RunState where
  graph : Graph
  queue : List Nat
  status : RunStatus
  deriving DecidableEq, Repr

/-- Body of the loop over the incident edges of `U` (dijkstras.cpp, lines 39-53). -/
def relaxEdge (U : Nat) (st : RunState) (incident_edge : Edge) : RunState :=
  let V := incident_edge.getAdjacentVertex U
  if (st.graph.vertexAt V).wasExplored then st
  else
    let temp_dist := ((st.graph.vertexAt U).distance + incident_edge.gas) % UINT64_MOD
    if temp_dist ≤ (st.graph.vertexAt V).distance then
      let g1 := st.graph.updateVertex V (fun v => (v.setDistance temp_dist).setParent U)
      let q1 := heapPush g1.key st.queue V
      let g2 := g1.updateVertex V
        (fun v => (v.incrementCentrality (g1.vertexAt U).centrality).addCentralityParent U)
      { st with graph := g2, queue := q1 }
    else st

/-- The loop that skips explored entries (dijkstras.cpp, lines 29-33), entered with a
non-empty queue. The emptiness test comes before the pop, the `top()` after it. -/
def skipExplored : Nat → RunState → RunState
  | 0, st => st
  | fuel + 1, st =>
    if (st.graph.vertexAt (heapTop st.queue)).wasExplored then
      if st.queue.isEmpty then { st with status := RunStatus.finished }
      else
        let q1 := heapPop st.graph.key st.queue
        if q1.isEmpty then { st with queue := q1, status := RunStatus.emptyQueueRead }
        else skipExplored fuel { st with queue := q1 }
    else st

/-- Lines 35-37 for the vertex `U` on top of the queue: record it in the finalized
order, mark it explored, pop it. -/
def markTop (st : RunState) : RunState :=
  let U := heapTop st.queue
  let g1 := (st.graph.pushDistanceOrderedVertex U).updateVertex U (fun v => v.setExplored true)
  { graph := g1, queue := heapPop g1.key st.queue, status := st.status }

/-- Lines 35-54: finalize the vertex on top of the queue, then relax along each of its
incident edges in turn. -/
def finalizeTop (st : RunState) : RunState :=
  ((markTop st).graph.vertexAt (heapTop st.queue)).incidentEdges.foldl
    (relaxEdge (heapTop st.queue)) (markTop st)

/-- The main loop (dijkstras.cpp, lines 27-55); the first argument bounds the number
of iterations. -/
def dijkstraLoop : Nat → RunState → RunState
  | 0, st => st
  | fuel + 1, st =>
    if st.queue.isEmpty then { st with status := RunStatus.finished }
    else
      let st1 := skipExplored st.queue.length st
      if st1.status = RunStatus.running then dijkstraLoop fuel (finalizeTop st1) else st1

/-- Lines 16-23: the state in which the main loop is entered. -/
def dijkstraInit (g : Graph) (start : Nat) : RunState :=
  let g0 := g.resetDistanceOrderedVertices
  let g1 : Graph := { g0 with vertices := g0.vertices.map Vertex.reset }
  let g2 := g1.updateVertex start (fun v => (v.incrementCentrality 1).setDistance 0)
  { graph := g2, queue := heapPush g2.key [] start, status := RunStatus.running }

/-- The procedure `dijkstra(g, start)`. Every iteration of the main loop that does not
end the run marks one more vertex explored, so one iteration per vertex and one more
are allowed. -/
def dijkstra (g : Graph) (start : Nat) : RunState :=
  dijkstraLoop (g.vertices.length + 1) (dijkstraInit g start)

/-! Vocabulary of the statements -/

/-- The test of lines 41-44: the neighbour is unexplored and the candidate distance
does not exceed its current distance. -/
def relaxAccepts (U : Nat) (st : RunState) (e : Edge) : Prop :=
  (st.graph.vertexAt (e.getAdjacentVertex U)).wasExplored = false ∧
  ((st.graph.vertexAt U).distance + e.gas) % UINT64_MOD ≤
    (st.graph.vertexAt (e.getAdjacentVertex U)).distance

instance (U : Nat) (st : RunState) (e : Edge) : Decidable (relaxAccepts U st e) := by
  unfold relaxAccepts; infer_instance

/-- The record of the neighbour after an accepted relaxation (lines 45-51). -/
def relaxedVertex (U : Nat) (st : RunState) (e : Edge) : Vertex :=
  let old := st.graph.vertexAt (e.getAdjacentVertex U)
  { old with
    distance := ((st.graph.vertexAt U).distance + e.gas) % UINT64_MOD
    parent := some U
    centrality := doubleAdd old.centrality (st.graph.vertexAt U).centrality
    centralityParents :=
      if U ∈ old.centralityParents then old.centralityParents else old.centralityParents ++ [U] }

/-- One step along an incident edge: `v` is the endpoint that `getAdjacentVertex`
returns for some edge of the incident list of `u`. -/
def Graph.Adjacent (g : Graph) (u v : Nat) : Prop :=
  ∃ e ∈ (g.vertexAt u).incidentEdges, e.getAdjacentVertex u = v

/-- Reachability from `s` by following incident edges. -/
def Graph.Reachable (g : Graph) (s v : Nat) : Prop :=
  Relation.ReflTransGen g.Adjacent s v

/-- What a run never writes: the address and the incident edges of each vertex. -/
def Graph.fixedPart (g : Graph) : List (String × List Edge) :=
  g.vertices.map (fun v => (v.address, v.incidentEdges))

/-- Number of vertices not yet marked explored. -/
def Graph.unexploredCount (g : Graph) : Nat :=
  g.vertices.countP (fun v => !v.wasExplored)

/-- Invariant of the main loop of a run on `g` from `S`: every vertex that has been
given a distance or a parent, and every neighbour of an explored vertex, is explored or
still has an entry in the queue. -/
structure ClosureInv (g : Graph) (S : Nat) (st : RunState) : Prop where
  len : st.graph.vertices.length = g.vertices.length
  inc : ∀ w, (st.graph.vertexAt w).incidentEdges = (g.vertexAt w).incidentEdges
  range : ∀ x ∈ st.queue, x < g.vertices.length
  src : (st.graph.vertexAt S).wasExplored = true ∨ S ∈ st.queue
  touched : ∀ v, ((st.graph.vertexAt v).distance ≠ INFINITE_DISTANCE ∨
      (st.graph.vertexAt v).parent ≠ none) →
    ((st.graph.vertexAt v).wasExplored = true ∨ v ∈ st.queue)
  closed : ∀ u, (st.graph.vertexAt u).wasExplored = true →
    ∀ e ∈ (g.vertexAt u).incidentEdges,
      ((st.graph.vertexAt (e.getAdjacentVertex u)).wasExplored = true ∨
        e.getAdjacentVertex u ∈ st.queue)
  ordered : ∀ v, (st.graph.vertexAt v).wasExplored = true →
    v ∈ st.graph.distanceOrderedVertices
  stopped : st.status ≠ RunStatus.running → st.queue = []

/-- Invariant of the loop over the incident edges of the explored vertex `U`, the edges
in `done` having been handled. -/
structure RelaxInv (g : Graph) (S U : Nat) (done : List Edge) (st : RunState) : Prop where
  len : st.graph.vertices.length = g.vertices.length
  inc : ∀ w, (st.graph.vertexAt w).incidentEdges = (g.vertexAt w).incidentEdges
  range : ∀ x ∈ st.queue, x < g.vertices.length
  src : (st.graph.vertexAt S).wasExplored = true ∨ S ∈ st.queue
  touched : ∀ v, ((st.graph.vertexAt v).distance ≠ INFINITE_DISTANCE ∨
      (st.graph.vertexAt v).parent ≠ none) →
    ((st.graph.vertexAt v).wasExplored = true ∨ v ∈ st.queue)
  closedOther : ∀ u, u ≠ U → (st.graph.vertexAt u).wasExplored = true →
    ∀ e ∈ (g.vertexAt u).incidentEdges,
      ((st.graph.vertexAt (e.getAdjacentVertex u)).wasExplored = true ∨
        e.getAdjacentVertex u ∈ st.queue)
  closedDone : ∀ e ∈ done,
    ((st.graph.vertexAt (e.getAdjacentVertex U)).wasExplored = true ∨
      e.getAdjacentVertex U ∈ st.queue)
  ordered : ∀ v, (st.graph.vertexAt v).wasExplored = true →
    v ∈ st.graph.distanceOrderedVertices
  running : st.status = RunStatus.running

/-! The words of the specification, and example graphs -/

/-- Follows the spec: the sum of `U.centrality` over the predecessor set of `V`, the
vertices `U` having an edge to `V` with `U.distance + edge.gas == V.distance`. -/
def Graph.predecessorCentralitySum (g : Graph) (V : Nat) : Nat :=
  (((List.range g.vertices.length).filter (fun U =>
      (g.vertexAt U).incidentEdges.any (fun e =>
        e.getAdjacentVertex U == V &&
          (g.vertexAt U).distance + e.gas == (g.vertexAt V).distance))).map
    (fun U => (g.vertexAt U).centrality)).sum

/-- The vertex at which the walk that starts at `u` and follows the listed edges ends,
each edge being taken from the incident list of the vertex it leaves. -/
def Graph.walkEnd (g : Graph) : Nat → List Edge → Option Nat
  | u, [] => some u
  | u, e :: es =>
    if e ∈ (g.vertexAt u).incidentEdges then g.walkEnd (e.getAdjacentVertex u) es else none

/-- Total gas of a list of edges, as a natural number. -/
def walkGas (es : List Edge) : Nat := (es.map (fun e => e.gas)).sum

/-- A transaction from `s` to `d` that used `gas`. -/
def transaction (s d gas : Nat) : Edge :=
  { source := s, destination := d, value := 0, gas := gas, gasPrice := 0, wasExplored := false }

/-- The graph whose vertices have the listed addresses and incident edges, before any
run. -/
def graphOf (vs : List (String × List Edge)) : Graph :=
  { vertices := vs.map (fun p => { Vertex.blank with address := p.1, incidentEdges := p.2 }),
    distanceOrderedVertices := [] }

/-- Scenario A of the spec, A = 0, B = 1, C = 2, each edge in the incident list of its
source: A->B (gas 5), B->C (gas 3), A->C (gas 10). -/
def scenarioA : Graph :=
  graphOf [("A", [transaction 0 1 5, transaction 0 2 10]), ("B", [transaction 1 2 3]), ("C", [])]

/-- Scenario A with each edge in the incident lists of both of its endpoints. -/
def scenarioAUndirected : Graph :=
  graphOf [("A", [transaction 0 1 5, transaction 0 2 10]),
    ("B", [transaction 0 1 5, transaction 1 2 3]),
    ("C", [transaction 1 2 3, transaction 0 2 10])]

/-- Scenario B of the spec, A = 0, B = 1, C = 2, D = 3, each edge in the incident list of
its source: A->B (gas 4), A->C (gas 4), B->D (gas 1), C->D (gas 1). -/
def scenarioB : Graph :=
  graphOf [("A", [transaction 0 1 4, transaction 0 2 4]), ("B", [transaction 1 3 1]),
    ("C", [transaction 2 3 1]), ("D", [])]

/-- Scenario B with each edge in the incident lists of both of its endpoints. -/
def scenarioBUndirected : Graph :=
  graphOf [("A", [transaction 0 1 4, transaction 0 2 4]),
    ("B", [transaction 0 1 4, transaction 1 3 1]),
    ("C", [transaction 0 2 4, transaction 2 3 1]),
    ("D", [transaction 1 3 1, transaction 2 3 1])]

/-- Scenario C of the spec: scenario A and a vertex E = 3 without edges. -/
def scenarioC : Graph :=
  graphOf [("A", [transaction 0 1 5, transaction 0 2 10]), ("B", [transaction 1 2 3]), ("C", []),
    ("E", [])]

/-- Four addresses, A = 0, B = 1, C = 2, D = 3, no two transactions between the same
pair: from A, in this order, A->B (gas 9), A->D (gas 1), A->C (gas 7); from B, B->C
(gas 3); from D, in this order, D->C (gas 6), D->B (gas 1). -/
def staleKeyGraph : Graph :=
  graphOf [("A", [transaction 0 1 9, transaction 0 3 1, transaction 0 2 7]),
    ("B", [transaction 1 2 3]), ("C", []),
    ("D", [transaction 3 2 6, transaction 3 1 1])]

/-- Three addresses, A = 0, B = 1, C = 2; four transactions from A, in this order:
A->B (gas 9), A->B (gas 9), A->C (gas 8), A->B (gas 5); and B->C (gas 2). -/
def staleKeyParallelGraph : Graph :=
  graphOf [("A", [transaction 0 1 9, transaction 0 1 9, transaction 0 2 8, transaction 0 1 5]),
    ("B", [transaction 1 2 2]), ("C", [])]

/-- Four addresses, A = 0, B = 1, C = 2, D = 3, no two transactions between the same
pair: from A, in this order, A->C (gas 8), A->D (gas 7), A->B (gas 4); from B, in this
order, B->D (gas 3), B->C (gas 1). -/
def staleOrderGraph : Graph :=
  graphOf [("A", [transaction 0 2 8, transaction 0 3 7, transaction 0 1 4]),
    ("B", [transaction 1 3 3, transaction 1 2 1]), ("C", []), ("D", [])]

/-- Three addresses, A = 0, B = 1, C = 2; four transactions from A, in this order:
A->B (gas 9), A->C (gas 7), A->C (gas 3), A->B (gas 1). -/
def staleOrderParallelGraph : Graph :=
  graphOf [("A", [transaction 0 1 9, transaction 0 2 7, transaction 0 2 3, transaction 0 1 1]),
    ("B", []), ("C", [])]

/-- Two addresses, A = 0, B = 1, and two transactions A->B (gas 3, then gas 2). -/
def twoTransfersGraph : Graph :=
  graphOf [("A", [transaction 0 1 3, transaction 0 1 2]), ("B", [])]

/-- A source with a self-loop, a parallel pair of edges and a cycle back to it, the
vertices holding traversal state of an earlier use. -/
def loopedSourceGraph : Graph :=
  { vertices :=
      [{ address := "A",
         incidentEdges := [transaction 0 0 0, transaction 0 1 2, transaction 0 1 2],
         distance := 7, wasExplored := true, parent := some 1, centrality := 5,
         centralityParents := [1] },
       { address := "B", incidentEdges := [transaction 1 0 0], distance := 3,
         wasExplored := true, parent := some 0, centrality := 4, centralityParents := [0] }],
    distanceOrderedVertices := [1, 0] }

/-! Further vocabulary: scores, the points of a run, counters -/

/-- A chain of 35 addresses v0, ..., v34 with three transactions of gas 1 from each to
the next. -/
def tripleChainGraph : Graph :=
  graphOf ((List.range 34).map (fun i =>
      ("v" ++ toString i,
        [transaction i (i + 1) 1, transaction i (i + 1) 1, transaction i (i + 1) 1])) ++
    [("v34", [])])

/-- The state of the run on `tripleChainGraph` from v0 inside the 34th iteration of the
main loop: v33 has been finalized and two of its three edges have been relaxed. -/
def tripleChainState : RunState :=
  relaxEdge 33
    (relaxEdge 33
      (markTop (skipExplored 5 (dijkstraLoop 33 (dijkstraInit tripleChainGraph 0))))
      (transaction 33 34 1))
    (transaction 33 34 1)

/-- The function `compare_bc_pair` of src/utils/utils.cpp: `p1.second > p2.second`. A
score (a `double` in the source) is a rational number: a finite `double` is one, and `>`
on finite doubles is the order of the numbers they denote. -/
def compare_bc_pair (p1 p2 : String × ℚ) : Bool :=
  decide (p1.2 > p2.2)

/-- The states a run on `g` from `S` passes through: the state in which the main loop is
entered, and what the steps of lines 27-54 make of a state: popping an explored top
entry, finalizing an unexplored top entry, relaxing along an incident edge of an explored
vertex, and ending on an empty queue. -/
inductive RunPoint (g : Graph) (S : Nat) : RunState → Prop where
  | init : RunPoint g S (dijkstraInit g S)
  | skip (st : RunState) : RunPoint g S st → st.queue ≠ [] →
      (st.graph.vertexAt (heapTop st.queue)).wasExplored = true →
      RunPoint g S { st with queue := heapPop st.graph.key st.queue }
  | mark (st : RunState) : RunPoint g S st → st.queue ≠ [] →
      (st.graph.vertexAt (heapTop st.queue)).wasExplored = false →
      RunPoint g S (markTop st)
  | relax (st : RunState) (U : Nat) (e : Edge) : RunPoint g S st →
      (st.graph.vertexAt U).wasExplored = true →
      e ∈ (st.graph.vertexAt U).incidentEdges →
      RunPoint g S (relaxEdge U st e)
  | halt (st : RunState) (s : RunStatus) : RunPoint g S st → st.queue = [] →
      RunPoint g S { st with status := s }

/-- The vertex reached from `v` by following parent links `k` times, if the links are
there. -/
def Graph.ancestor (g : Graph) : Nat → Nat → Option Nat
  | 0, v => some v
  | k + 1, v =>
    match (g.vertexAt v).parent with
    | none => none
    | some p => g.ancestor k p

/-- What holds at every point of a run on a well-formed graph `g` from a source `S` of
it. -/
structure RunInv (g : Graph) (S : Nat) (st : RunState) : Prop where
  len : st.graph.vertices.length = g.vertices.length
  inc : ∀ w, (st.graph.vertexAt w).incidentEdges = (g.vertexAt w).incidentEdges
  range : ∀ x ∈ st.queue, x < g.vertices.length
  qpar : ∀ x ∈ st.queue, x = S ∨ (st.graph.vertexAt x).parent ≠ none
  epar : ∀ x, (st.graph.vertexAt x).wasExplored = true →
    x = S ∨ (st.graph.vertexAt x).parent ≠ none
  parentOk : ∀ V P, (st.graph.vertexAt V).parent = some P →
    (st.graph.vertexAt P).wasExplored = true ∧
    P ∈ (st.graph.vertexAt V).centralityParents ∧
    ∃ e ∈ (g.vertexAt P).incidentEdges, e.getAdjacentVertex P = V ∧
      (st.graph.vertexAt V).distance =
        ((st.graph.vertexAt P).distance + e.gas) % UINT64_MOD
  srcParent : (st.graph.vertexAt S).parent = none
  start : (st.graph.vertexAt S).wasExplored = true ∨
    ((∀ v, (st.graph.vertexAt v).wasExplored = false) ∧ st.queue = [S])
  orderNodup : st.graph.distanceOrderedVertices.Nodup
  orderMem : ∀ v, v ∈ st.graph.distanceOrderedVertices ↔
    (st.graph.vertexAt v).wasExplored = true
  orderHead : ∀ x, st.graph.distanceOrderedVertices.head? = some x → x = S
  chain : ∀ v, (st.graph.vertexAt v).wasExplored = true →
    ∃ k, st.graph.ancestor k v = some S

/-- Number of queue pushes of the loop over the listed incident edges of `U`, entered
in state `st`: one for each edge whose relaxation is accepted. -/
def relaxPushes (U : Nat) : RunState → List Edge → Nat
  | _, [] => 0
  | st, e :: es => (if relaxAccepts U st e then 1 else 0) + relaxPushes U (relaxEdge U st e) es

/-- Number of queue pushes of the main loop, entered in state `st`, the first argument
bounding the number of iterations as in `dijkstraLoop`. -/
def loopPushes : Nat → RunState → Nat
  | 0, _ => 0
  | fuel + 1, st =>
    if st.queue.isEmpty then 0
    else if (skipExplored st.queue.length st).status = RunStatus.running then
      relaxPushes (heapTop (skipExplored st.queue.length st).queue)
          (markTop (skipExplored st.queue.length st))
          ((markTop (skipExplored st.queue.length st)).graph.vertexAt
            (heapTop (skipExplored st.queue.length st).queue)).incidentEdges +
        loopPushes fuel (finalizeTop (skipExplored st.queue.length st))
    else 0

/-- Number of queue pushes of `dijkstra(g, start)`: the push of line 23 and those of the
main loop. -/
def dijkstraPushes (g : Graph) (start : Nat) : Nat :=
  1 + loopPushes (g.vertices.length + 1) (dijkstraInit g start)

/-- Total length of all incident-edge lists. -/
def Graph.incidentTotal (g : Graph) : Nat :=
  (g.vertices.map (fun v => v.incidentEdges.length)).sum

/-- Total length of the incident-edge lists of the vertices not yet explored. -/
def Graph.unexploredIncident (g : Graph) : Nat :=
  (g.vertices.map (fun v => if v.wasExplored then 0 else v.incidentEdges.length)).sum

/-- Every entry of an incident-edge list is incident to the vertex that holds it: the
vertex is the source or the destination of the edge (the precondition of
`getAdjacentVertex`). -/
def Graph.IncidentToOwner (g : Graph) : Prop :=
  ∀ v e, e ∈ (g.vertexAt v).incidentEdges → e.source = v ∨ e.destination = v

/-- Total gas of the edges of `E` that have both endpoints in the set `inside`. -/
def gasWithin (E : List Edge) (inside : Nat → Bool) : Nat :=
  ((E.filter (fun e => inside e.source && inside e.destination)).map (fun e => e.gas)).sum

/-- The explored vertices of a state together with the vertex `v`. -/
def exploredOr (st : RunState) (v : Nat) (w : Nat) : Bool :=
  (st.graph.vertexAt w).wasExplored || decide (w = v)

/-! Addition of accumulators -/

theorem roundToDouble_of_le (n : Nat) (h : n ≤ 2 ^ 53) : roundToDouble n = n := by
  by_cases h1 : n < 2 ^ 53
  · unfold roundToDouble
    rw [if_pos h1]
  · have h2 : n = 2 ^ 53 := by omega
    rw [h2]
    decide

theorem doubleAdd_of_le (a b : Nat) (h : a + b ≤ 2 ^ 53) : doubleAdd a b = a + b :=
  roundToDouble_of_le (a + b) h

/-! Heap lemmas -/

theorem swapAt_perm (xs : List Nat) (i j : Nat) : (swapAt xs i j).Perm xs := by
  unfold swapAt
  split
  · rename_i h
    obtain ⟨hi, hj⟩ := h
    rw [List.perm_iff_count]
    intro a
    have hj2 : j < (xs.set i (xs.getD j 0)).length := by simpa using hj
    rw [List.count_set _ _ _ _ hj2, List.count_set _ _ _ _ hi]
    have e1 : xs.getD j 0 = xs[j] := by simp [List.getD_eq_getElem?_getD, List.getElem?_eq_getElem hj]
    have e2 : xs.getD i 0 = xs[i] := by simp [List.getD_eq_getElem?_getD, List.getElem?_eq_getElem hi]
    have p1 : xs[i] = a → 0 < xs.count a := fun h => List.count_pos_iff.mpr (h ▸ List.getElem_mem hi)
    have p2 : xs[j] = a → 0 < xs.count a := fun h => List.count_pos_iff.mpr (h ▸ List.getElem_mem hj)
    simp only [List.getElem_set, e1, e2, beq_iff_eq]
    by_cases hij : i = j
    · subst hij
      simp only [if_true]
      by_cases h1 : xs[i] = a
      · have := p1 h1
        simp [h1]; omega
      · simp [h1]
    · simp only [hij, if_false]
      by_cases h1 : xs[i] = a <;> by_cases h2 : xs[j] = a
      · have := p1 h1
        simp [h1, h2]; omega
      · have := p1 h1
        simp [h1, h2]; omega
      · simp [h1, h2]
      · simp [h1, h2]
  · exact List.Perm.refl _

theorem siftUp_perm (key : Nat → Nat) : ∀ (fuel hole : Nat) (c : List Nat),
    (siftUp key fuel hole c).Perm c
  | 0, _, c => by simp [siftUp]
  | fuel + 1, hole, c => by
    unfold siftUp
    split
    · exact List.Perm.refl _
    · split
      · exact (siftUp_perm key fuel _ _).trans (swapAt_perm _ _ _)
      · exact List.Perm.refl _

theorem heapPush_perm (key : Nat → Nat) (c : List Nat) (v : Nat) :
    (heapPush key c v).Perm (v :: c) := by
  unfold heapPush
  exact (siftUp_perm key _ _ _).trans (List.perm_append_singleton v c)

theorem siftDown_perm (key : Nat → Nat) : ∀ (fuel hole : Nat) (c : List Nat),
    (siftDown key fuel hole c).2.Perm c
  | 0, _, c => by simp [siftDown]
  | fuel + 1, hole, c => by
    unfold siftDown
    split
    · exact (siftDown_perm key fuel _ _).trans (swapAt_perm _ _ _)
    · exact List.Perm.refl _

theorem lastChildStep_perm (p : Nat × List Nat) : (lastChildStep p).2.Perm p.2 := by
  unfold lastChildStep
  split
  · exact swapAt_perm _ _ _
  · exact List.Perm.refl _

theorem set_zero_getLast_dropLast_perm (x : Nat) (t : List Nat) (ht : t ≠ []) :
    (((x :: t).set 0 ((x :: t).getLastD 0)).dropLast).Perm t := by
  have hl : (x :: t).getLastD 0 = t.getLast ht := by
    cases t with
    | nil => exact absurd rfl ht
    | cons y t2 => rw [List.getLastD_cons, List.getLast_eq_getLastD, List.getLastD_cons]
  rw [hl]
  simp only [List.set_cons_zero]
  have h2 : (t.getLast ht :: t).dropLast = t.getLast ht :: t.dropLast := by
    cases t with
    | nil => exact absurd rfl ht
    | cons y t2 => rfl
  rw [h2]
  have h3 : t.dropLast ++ [t.getLast ht] = t := List.dropLast_append_getLast ht
  have h4 := List.perm_append_singleton (t.getLast ht) t.dropLast
  rw [h3] at h4
  exact h4.symm

theorem heapPop_perm (key : Nat → Nat) (x : Nat) (t : List Nat) :
    (heapPop key (x :: t)).Perm t := by
  unfold heapPop
  by_cases ht : t = []
  · subst ht
    rw [if_pos (by simp)]
  · have hlen : ¬ (x :: t).length ≤ 1 := by
      cases t with
      | nil => exact absurd rfl ht
      | cons y t2 => simp
    rw [if_neg hlen]
    exact ((siftUp_perm key _ _ _).trans (lastChildStep_perm _)).trans
      ((siftDown_perm key _ _ _).trans (set_zero_getLast_dropLast_perm x t ht))

theorem mem_heapPush {key : Nat → Nat} {c : List Nat} {v x : Nat} :
    x ∈ heapPush key c v ↔ x = v ∨ x ∈ c := by
  rw [(heapPush_perm key c v).mem_iff]; simp

theorem length_heapPush (key : Nat → Nat) (c : List Nat) (v : Nat) :
    (heapPush key c v).length = c.length + 1 := by
  rw [(heapPush_perm key c v).length_eq]; simp

theorem heapPop_nil (key : Nat → Nat) : heapPop key [] = [] := by simp [heapPop]

theorem length_heapPop (key : Nat → Nat) (c : List Nat) :
    (heapPop key c).length = c.length - 1 := by
  cases c with
  | nil => simp [heapPop]
  | cons x t => rw [(heapPop_perm key x t).length_eq]; simp

theorem mem_of_mem_heapPop {key : Nat → Nat} {c : List Nat} {x : Nat}
    (h : x ∈ heapPop key c) : x ∈ c := by
  cases c with
  | nil => simp [heapPop] at h
  | cons y t => exact List.mem_cons_of_mem _ ((heapPop_perm key y t).mem_iff.mp h)

theorem mem_heapPop_of_ne_top {key : Nat → Nat} {c : List Nat} {x : Nat}
    (h : x ∈ c) (hne : x ≠ heapTop c) : x ∈ heapPop key c := by
  cases c with
  | nil => simp at h
  | cons y t =>
    rw [(heapPop_perm key y t).mem_iff]
    rcases List.mem_cons.mp h with h1 | h1
    · exact absurd h1 (by simpa [heapTop] using hne)
    · exact h1

theorem heapTop_mem {c : List Nat} (h : c ≠ []) : heapTop c ∈ c := by
  cases c with
  | nil => exact absurd rfl h
  | cons y t => simp [heapTop]

theorem heapPush_nil (key : Nat → Nat) (v : Nat) : heapPush key [] v = [v] := by
  simp [heapPush, siftUp]

/-! Reading and writing vertices -/

theorem vertexAt_updateVertex (g : Graph) (v w : Nat) (f : Vertex → Vertex) :
    (g.updateVertex v f).vertexAt w =
      if w = v ∧ v < g.vertices.length then f (g.vertexAt v) else g.vertexAt w := by
  unfold Graph.updateVertex Graph.vertexAt
  simp only [List.getD_eq_getElem?_getD, List.getElem?_set]
  by_cases hw : w = v
  · subst hw
    by_cases hl : w < g.vertices.length
    · simp [hl]
    · simp [hl, List.getElem?_eq_none (Nat.le_of_not_lt hl)]
  · have hw2 : ¬ v = w := fun h => hw h.symm
    simp [hw, hw2]

theorem length_updateVertex (g : Graph) (v : Nat) (f : Vertex → Vertex) :
    (g.updateVertex v f).vertices.length = g.vertices.length := by
  simp [Graph.updateVertex]

theorem order_updateVertex (g : Graph) (v : Nat) (f : Vertex → Vertex) :
    (g.updateVertex v f).distanceOrderedVertices = g.distanceOrderedVertices := rfl

theorem vertexAt_of_length_le (g : Graph) (v : Nat) (h : g.vertices.length ≤ v) :
    g.vertexAt v = Vertex.blank := by
  simp [Graph.vertexAt, List.getD_eq_getElem?_getD, List.getElem?_eq_none h]

theorem vertexAt_mem (g : Graph) (v : Nat) (h : v < g.vertices.length) :
    g.vertexAt v ∈ g.vertices := by
  have : g.vertexAt v = g.vertices[v] := by
    simp [Graph.vertexAt, List.getD_eq_getElem?_getD, List.getElem?_eq_getElem h]
  rw [this]
  exact List.getElem_mem h

/-! What one relaxation does -/

theorem relaxEdge_status (U : Nat) (st : RunState) (e : Edge) :
    (relaxEdge U st e).status = st.status := by
  unfold relaxEdge
  simp only
  split
  · rfl
  · split <;> rfl

theorem relaxEdge_order (U : Nat) (st : RunState) (e : Edge) :
    (relaxEdge U st e).graph.distanceOrderedVertices = st.graph.distanceOrderedVertices := by
  unfold relaxEdge
  simp only
  split
  · rfl
  · split <;> rfl

theorem relaxEdge_length (U : Nat) (st : RunState) (e : Edge) :
    (relaxEdge U st e).graph.vertices.length = st.graph.vertices.length := by
  unfold relaxEdge
  simp only
  split
  · rfl
  · split
    · simp [length_updateVertex]
    · rfl

theorem relaxEdge_queue (U : Nat) (st : RunState) (e : Edge) :
    (relaxEdge U st e).queue =
      if relaxAccepts U st e then
        heapPush (st.graph.updateVertex (e.getAdjacentVertex U)
          (fun v => (v.setDistance (((st.graph.vertexAt U).distance + e.gas) % UINT64_MOD)).setParent
            U)).key st.queue (e.getAdjacentVertex U)
      else st.queue := by
  by_cases h1 : (st.graph.vertexAt (e.getAdjacentVertex U)).wasExplored = true
  · simp [relaxEdge, relaxAccepts, h1]
  · by_cases h2 : ((st.graph.vertexAt U).distance + e.gas) % UINT64_MOD ≤
        (st.graph.vertexAt (e.getAdjacentVertex U)).distance
    · simp [relaxEdge, relaxAccepts, h1, h2]
    · simp [relaxEdge, relaxAccepts, h1, h2]

theorem relaxEdge_vertexAt (U : Nat) (st : RunState) (e : Edge) (w : Nat) :
    (relaxEdge U st e).graph.vertexAt w =
      if relaxAccepts U st e ∧ w = e.getAdjacentVertex U ∧ w < st.graph.vertices.length then
        relaxedVertex U st e
      else st.graph.vertexAt w := by
  by_cases h1 : (st.graph.vertexAt (e.getAdjacentVertex U)).wasExplored = true
  · simp [relaxEdge, relaxAccepts, h1]
  · by_cases h2 : ((st.graph.vertexAt U).distance + e.gas) % UINT64_MOD ≤
        (st.graph.vertexAt (e.getAdjacentVertex U)).distance
    · have hacc : relaxAccepts U st e := ⟨by simpa using h1, h2⟩
      simp only [relaxEdge, h1, h2, if_true, if_false, hacc, true_and]
      simp only [vertexAt_updateVertex, length_updateVertex, relaxedVertex]
      generalize e.getAdjacentVertex U = V
      by_cases hw : w = V
      · subst hw
        by_cases hl : w < st.graph.vertices.length
        · by_cases hU : U = w
          · subst hU
            simp [Vertex.setDistance, Vertex.setParent, Vertex.incrementCentrality,
              Vertex.addCentralityParent, hl, vertexAt_updateVertex, length_updateVertex]
          · simp [Vertex.setDistance, Vertex.setParent, Vertex.incrementCentrality,
              Vertex.addCentralityParent, hU, hl, vertexAt_updateVertex, length_updateVertex]
        · simp [hl, vertexAt_updateVertex, length_updateVertex]
      · simp [hw, vertexAt_updateVertex, length_updateVertex]
    · simp [relaxEdge, relaxAccepts, h1, h2]

theorem relaxEdge_wasExplored (U : Nat) (st : RunState) (e : Edge) (w : Nat) :
    ((relaxEdge U st e).graph.vertexAt w).wasExplored = (st.graph.vertexAt w).wasExplored := by
  rw [relaxEdge_vertexAt]
  split
  · rename_i h
    obtain ⟨_, hw, _⟩ := h
    subst hw
    simp [relaxedVertex]
  · rfl

theorem relaxEdge_fixed (U : Nat) (st : RunState) (e : Edge) (w : Nat) :
    ((relaxEdge U st e).graph.vertexAt w).incidentEdges = (st.graph.vertexAt w).incidentEdges ∧
    ((relaxEdge U st e).graph.vertexAt w).address = (st.graph.vertexAt w).address := by
  rw [relaxEdge_vertexAt]
  split
  · rename_i h
    obtain ⟨_, hw, _⟩ := h
    subst hw
    simp [relaxedVertex]
  · exact ⟨rfl, rfl⟩

theorem relaxEdge_of_explored (U : Nat) (st : RunState) (e : Edge) (w : Nat)
    (h : (st.graph.vertexAt w).wasExplored = true) :
    (relaxEdge U st e).graph.vertexAt w = st.graph.vertexAt w := by
  rw [relaxEdge_vertexAt]
  split
  · rename_i h2
    obtain ⟨hacc, hw, _⟩ := h2
    subst hw
    rw [hacc.1] at h
    exact absurd h (by simp)
  · rfl

theorem mem_relaxEdge_queue {U : Nat} {st : RunState} {e : Edge} {x : Nat} :
    x ∈ (relaxEdge U st e).queue ↔
      x ∈ st.queue ∨ (relaxAccepts U st e ∧ x = e.getAdjacentVertex U) := by
  rw [relaxEdge_queue]
  split
  · rename_i h
    rw [mem_heapPush]
    constructor
    · rintro (h1 | h1)
      · exact Or.inr ⟨h, h1⟩
      · exact Or.inl h1
    · rintro (h1 | ⟨_, h1⟩)
      · exact Or.inr h1
      · exact Or.inl h1
  · rename_i h
    constructor
    · exact Or.inl
    · rintro (h1 | ⟨h1, _⟩)
      · exact h1
      · exact absurd h1 h

/-! Induction over the loops -/

theorem foldl_relaxEdge_induction (U : Nat) (R : RunState → Prop) (es : List Edge)
    (h : ∀ st e, e ∈ es → R st → R (relaxEdge U st e)) :
    ∀ st, R st → R (es.foldl (relaxEdge U) st) := by
  induction es with
  | nil => intro st hst; exact hst
  | cons e es ih =>
    intro st hst
    rw [List.foldl_cons]
    exact ih (fun st2 e2 he2 => h st2 e2 (List.mem_cons_of_mem _ he2)) _
      (h st e (List.mem_cons_self _ _) hst)

theorem skipExplored_succ (fuel : Nat) (st : RunState) :
    skipExplored (fuel + 1) st =
      if (st.graph.vertexAt (heapTop st.queue)).wasExplored then
        if st.queue.isEmpty then { st with status := RunStatus.finished }
        else if (heapPop st.graph.key st.queue).isEmpty then
          { st with queue := heapPop st.graph.key st.queue, status := RunStatus.emptyQueueRead }
        else skipExplored fuel { st with queue := heapPop st.graph.key st.queue }
      else st := rfl

theorem dijkstraLoop_succ (fuel : Nat) (st : RunState) :
    dijkstraLoop (fuel + 1) st =
      if st.queue.isEmpty then { st with status := RunStatus.finished }
      else if (skipExplored st.queue.length st).status = RunStatus.running then
        dijkstraLoop fuel (finalizeTop (skipExplored st.queue.length st))
      else skipExplored st.queue.length st := rfl

theorem skipExplored_graph : ∀ (fuel : Nat) (st : RunState),
    (skipExplored fuel st).graph = st.graph
  | 0, st => rfl
  | fuel + 1, st => by
    rw [skipExplored_succ]
    split
    · split
      · rfl
      · split
        · rfl
        · exact skipExplored_graph fuel _
    · rfl

theorem skipExplored_induction (P : RunState → Prop)
    (hstatus : ∀ st s, P st → st.queue = [] → P { st with status := s })
    (hpop : ∀ st, P st → st.queue ≠ [] →
      (st.graph.vertexAt (heapTop st.queue)).wasExplored = true →
      P { st with queue := heapPop st.graph.key st.queue }) :
    ∀ (fuel : Nat) (st : RunState), P st → P (skipExplored fuel st)
  | 0, st, h => h
  | fuel + 1, st, h => by
    rw [skipExplored_succ]
    split
    · rename_i hexp
      split
      · rename_i hemp
        exact hstatus st _ h (List.isEmpty_iff.mp hemp)
      · rename_i hemp
        have hne : st.queue ≠ [] := fun h0 => hemp (List.isEmpty_iff.mpr h0)
        have hp := hpop st h hne hexp
        split
        · rename_i hemp2
          exact hstatus _ RunStatus.emptyQueueRead hp (List.isEmpty_iff.mp hemp2)
        · exact skipExplored_induction P hstatus hpop fuel _ hp
    · exact h

theorem skipExplored_running : ∀ (fuel : Nat) (st : RunState),
    st.queue.length ≤ fuel → st.queue ≠ [] →
    (skipExplored fuel st).status = RunStatus.running →
    st.status = RunStatus.running ∧ (skipExplored fuel st).queue ≠ [] ∧
    ((skipExplored fuel st).graph.vertexAt (heapTop (skipExplored fuel st).queue)).wasExplored
      = false
  | 0, st, hlen, hne, _ => by
    exact absurd (List.length_eq_zero.mp (Nat.le_zero.mp hlen)) hne
  | fuel + 1, st, hlen, hne, hrun => by
    rw [skipExplored_succ] at hrun ⊢
    split at hrun
    · rename_i hexp
      rw [if_pos hexp]
      split at hrun
      · simp at hrun
      · rename_i hemp
        rw [if_neg hemp]
        split at hrun
        · simp at hrun
        · rename_i hemp2
          rw [if_neg hemp2]
          have hlen2 : (heapPop st.graph.key st.queue).length ≤ fuel := by
            rw [length_heapPop]; omega
          have hne2 : heapPop st.graph.key st.queue ≠ [] :=
            fun h0 => hemp2 (List.isEmpty_iff.mpr h0)
          exact skipExplored_running fuel
            { st with queue := heapPop st.graph.key st.queue } hlen2 hne2 hrun
    · rename_i hexp
      rw [if_neg hexp]
      exact ⟨hrun, hne, by simpa using hexp⟩

theorem dijkstraLoop_induction (P : RunState → Prop)
    (hstatus : ∀ st s, P st → st.queue = [] → P { st with status := s })
    (hpop : ∀ st, P st → st.queue ≠ [] →
      (st.graph.vertexAt (heapTop st.queue)).wasExplored = true →
      P { st with queue := heapPop st.graph.key st.queue })
    (hstep : ∀ st, P st → st.status = RunStatus.running → st.queue ≠ [] →
      (st.graph.vertexAt (heapTop st.queue)).wasExplored = false → P (finalizeTop st)) :
    ∀ (fuel : Nat) (st : RunState), P st → P (dijkstraLoop fuel st)
  | 0, st, h => h
  | fuel + 1, st, h => by
    rw [dijkstraLoop_succ]
    split
    · rename_i hemp
      exact hstatus st _ h (List.isEmpty_iff.mp hemp)
    · rename_i hemp
      have hne : st.queue ≠ [] := fun h0 => hemp (List.isEmpty_iff.mpr h0)
      have hP1 := skipExplored_induction P hstatus hpop st.queue.length st h
      split
      · rename_i hrun
        obtain ⟨_, hne1, hexp1⟩ := skipExplored_running _ st (Nat.le_refl _) hne hrun
        exact dijkstraLoop_induction P hstatus hpop hstep fuel _
          (hstep _ hP1 hrun hne1 hexp1)
      · exact hP1

/-! Finalizing the top of the queue -/

theorem markTop_vertexAt (st : RunState) (w : Nat) :
    (markTop st).graph.vertexAt w =
      if w = heapTop st.queue ∧ w < st.graph.vertices.length then
        (st.graph.vertexAt w).setExplored true
      else st.graph.vertexAt w := by
  unfold markTop
  simp only [vertexAt_updateVertex]
  by_cases h : w = heapTop st.queue ∧ w < st.graph.vertices.length
  · obtain ⟨h1, h2⟩ := h
    subst h1
    simp [Graph.pushDistanceOrderedVertex, h2, Graph.vertexAt]
  · have h3 : ¬ (w = heapTop st.queue ∧
        heapTop st.queue < (st.graph.pushDistanceOrderedVertex (heapTop st.queue)).vertices.length) := by
      intro h4
      apply h
      refine ⟨h4.1, ?_⟩
      have := h4.2
      rw [← h4.1] at this
      exact this
    rw [if_neg h3, if_neg h]
    rfl

theorem markTop_order (st : RunState) :
    (markTop st).graph.distanceOrderedVertices =
      st.graph.distanceOrderedVertices ++ [heapTop st.queue] := rfl

theorem markTop_length (st : RunState) :
    (markTop st).graph.vertices.length = st.graph.vertices.length := by
  simp [markTop, Graph.updateVertex, Graph.pushDistanceOrderedVertex]

theorem markTop_status (st : RunState) : (markTop st).status = st.status := rfl

theorem mem_of_mem_markTop_queue {st : RunState} {x : Nat} (h : x ∈ (markTop st).queue) :
    x ∈ st.queue :=
  mem_of_mem_heapPop h

theorem mem_markTop_queue_of_ne {st : RunState} {x : Nat} (h : x ∈ st.queue)
    (hne : x ≠ heapTop st.queue) : x ∈ (markTop st).queue :=
  mem_heapPop_of_ne_top h hne

theorem finalizeTop_status (st : RunState) : (finalizeTop st).status = st.status := by
  unfold finalizeTop
  exact foldl_relaxEdge_induction _ (fun s => s.status = st.status) _
    (fun s e _ hs => by beta_reduce at hs ⊢; rw [relaxEdge_status]; exact hs) _ (markTop_status st)

theorem finalizeTop_length (st : RunState) :
    (finalizeTop st).graph.vertices.length = st.graph.vertices.length := by
  unfold finalizeTop
  exact foldl_relaxEdge_induction _ (fun s => s.graph.vertices.length = st.graph.vertices.length) _
    (fun s e _ hs => by beta_reduce at hs ⊢; rw [relaxEdge_length]; exact hs) _ (markTop_length st)

/-! The state in which the loop is entered -/

theorem dijkstraInit_vertexAt (g : Graph) (start w : Nat) :
    (dijkstraInit g start).graph.vertexAt w =
      if w = start ∧ start < g.vertices.length then
        (((g.vertexAt w).reset).incrementCentrality 1).setDistance 0
      else (g.vertexAt w).reset := by
  have hreset : ∀ x, ({ g.resetDistanceOrderedVertices with
      vertices := g.resetDistanceOrderedVertices.vertices.map Vertex.reset } : Graph).vertexAt x =
      (g.vertexAt x).reset := by
    intro x
    simp only [Graph.vertexAt, Graph.resetDistanceOrderedVertices, List.getD_eq_getElem?_getD,
      List.getElem?_map]
    cases g.vertices[x]? <;> rfl
  unfold dijkstraInit
  simp only [vertexAt_updateVertex, hreset]
  by_cases h : w = start
  · subst h
    simp [Graph.resetDistanceOrderedVertices]
  · simp [h]

theorem dijkstraInit_queue (g : Graph) (start : Nat) : (dijkstraInit g start).queue = [start] := by
  simp [dijkstraInit, heapPush_nil]

theorem dijkstraInit_status (g : Graph) (start : Nat) :
    (dijkstraInit g start).status = RunStatus.running := rfl

theorem dijkstraInit_order (g : Graph) (start : Nat) :
    (dijkstraInit g start).graph.distanceOrderedVertices = [] := rfl

theorem dijkstraInit_length (g : Graph) (start : Nat) :
    (dijkstraInit g start).graph.vertices.length = g.vertices.length := by
  simp [dijkstraInit, Graph.updateVertex, Graph.resetDistanceOrderedVertices]

/-! The source -/

theorem sourceInv_loop (S : Nat) (fuel : Nat) (st : RunState)
    (h : S < st.graph.vertices.length ∧ (st.graph.vertexAt S).distance = 0 ∧
      (st.graph.vertexAt S).centrality = 1 ∧
      ((st.graph.vertexAt S).wasExplored = true ∨ heapTop st.queue = S)) :
    S < (dijkstraLoop fuel st).graph.vertices.length ∧
    ((dijkstraLoop fuel st).graph.vertexAt S).distance = 0 ∧
    ((dijkstraLoop fuel st).graph.vertexAt S).centrality = 1 ∧
    (((dijkstraLoop fuel st).graph.vertexAt S).wasExplored = true ∨
      heapTop (dijkstraLoop fuel st).queue = S) := by
  refine dijkstraLoop_induction
    (fun s => S < s.graph.vertices.length ∧ (s.graph.vertexAt S).distance = 0 ∧
      (s.graph.vertexAt S).centrality = 1 ∧
      ((s.graph.vertexAt S).wasExplored = true ∨ heapTop s.queue = S)) ?_ ?_ ?_ fuel st h
  · intro s _ hs _
    exact hs
  · intro s hs _ hexp
    obtain ⟨h1, h2, h3, h4⟩ := hs
    refine ⟨h1, h2, h3, Or.inl ?_⟩
    rcases h4 with h4 | h4
    · exact h4
    · rw [h4] at hexp; exact hexp
  · intro s hs _ _ hexp
    obtain ⟨h1, h2, h3, h4⟩ := hs
    have hR : S < (finalizeTop s).graph.vertices.length ∧
        ((finalizeTop s).graph.vertexAt S).distance = 0 ∧
        ((finalizeTop s).graph.vertexAt S).centrality = 1 ∧
        ((finalizeTop s).graph.vertexAt S).wasExplored = true := by
      unfold finalizeTop
      refine foldl_relaxEdge_induction _
        (fun t => S < t.graph.vertices.length ∧ (t.graph.vertexAt S).distance = 0 ∧
          (t.graph.vertexAt S).centrality = 1 ∧ (t.graph.vertexAt S).wasExplored = true) _ ?_ _ ?_
      · intro t e _ ht
        obtain ⟨t1, t2, t3, t4⟩ := ht
        rw [relaxEdge_length, relaxEdge_of_explored _ _ _ _ t4]
        exact ⟨t1, t2, t3, t4⟩
      · beta_reduce
        rw [markTop_length, markTop_vertexAt]
        split
        · exact ⟨h1, h2, h3, rfl⟩
        · rename_i hne
          refine ⟨h1, h2, h3, ?_⟩
          rcases h4 with h4 | h4
          · exact h4
          · exact absurd ⟨h4.symm, h1⟩ hne
    exact ⟨hR.1, hR.2.1, hR.2.2.1, Or.inl hR.2.2.2⟩

/-- C4: for every source `S` owned by the graph, whatever the traversal state before the
call and whatever the shape of the graph (self-loops, parallel edges, cycles), the run
leaves `S.distance == 0` and `S.centrality == 1.0`. -/
theorem dijkstra_source_distance_centrality (g : Graph) (S : Nat)
    (hS : S < g.vertices.length) :
    ((dijkstra g S).graph.vertexAt S).distance = 0 ∧
    ((dijkstra g S).graph.vertexAt S).centrality = 1 := by
  have h := sourceInv_loop S (g.vertices.length + 1) (dijkstraInit g S)
    ⟨by rw [dijkstraInit_length]; exact hS,
     by rw [dijkstraInit_vertexAt]; simp [hS, Vertex.setDistance],
     by rw [dijkstraInit_vertexAt]
        simp [hS, Vertex.setDistance, Vertex.incrementCentrality, Vertex.reset]
        exact doubleAdd_of_le 0 1 (by decide),
     Or.inr (by rw [dijkstraInit_queue]; rfl)⟩
  exact ⟨h.2.1, h.2.2.1⟩

/-! What a run leaves alone -/

theorem fixedPart_eq_of_vertexAt (g g2 : Graph)
    (hlen : g.vertices.length = g2.vertices.length)
    (h : ∀ w, (g.vertexAt w).address = (g2.vertexAt w).address ∧
      (g.vertexAt w).incidentEdges = (g2.vertexAt w).incidentEdges) :
    g.fixedPart = g2.fixedPart := by
  unfold Graph.fixedPart
  apply List.ext_getElem
  · simp [hlen]
  · intro i h1 h2
    have hi1 : i < g.vertices.length := by simpa using h1
    have hi2 : i < g2.vertices.length := by simpa using h2
    have e1 : g.vertexAt i = g.vertices[i] := by
      simp [Graph.vertexAt, List.getD_eq_getElem?_getD, List.getElem?_eq_getElem hi1]
    have e2 : g2.vertexAt i = g2.vertices[i] := by
      simp [Graph.vertexAt, List.getD_eq_getElem?_getD, List.getElem?_eq_getElem hi2]
    have := h i
    rw [e1, e2] at this
    simp [this.1, this.2]

theorem vertexAt_fixed_of_fixedPart (g g2 : Graph) (h : g.fixedPart = g2.fixedPart) (w : Nat) :
    (g.vertexAt w).address = (g2.vertexAt w).address ∧
    (g.vertexAt w).incidentEdges = (g2.vertexAt w).incidentEdges := by
  have hw : g.fixedPart[w]? = g2.fixedPart[w]? := by rw [h]
  unfold Graph.fixedPart at hw
  simp only [List.getElem?_map] at hw
  unfold Graph.vertexAt
  simp only [List.getD_eq_getElem?_getD]
  cases h1 : g.vertices[w]? <;> cases h2 : g2.vertices[w]? <;> simp [h1, h2] at hw ⊢
  exact hw

theorem length_eq_of_fixedPart (g g2 : Graph) (h : g.fixedPart = g2.fixedPart) :
    g.vertices.length = g2.vertices.length := by
  have := congrArg List.length h
  simpa [Graph.fixedPart] using this

theorem dijkstraLoop_fixed (L : Nat) (a : Nat → String) (i : Nat → List Edge) (fuel : Nat)
    (st : RunState)
    (h : st.graph.vertices.length = L ∧
      ∀ w, (st.graph.vertexAt w).address = a w ∧ (st.graph.vertexAt w).incidentEdges = i w) :
    (dijkstraLoop fuel st).graph.vertices.length = L ∧
      ∀ w, ((dijkstraLoop fuel st).graph.vertexAt w).address = a w ∧
        ((dijkstraLoop fuel st).graph.vertexAt w).incidentEdges = i w := by
  refine dijkstraLoop_induction
    (fun s => s.graph.vertices.length = L ∧
      ∀ w, (s.graph.vertexAt w).address = a w ∧ (s.graph.vertexAt w).incidentEdges = i w)
    ?_ ?_ ?_ fuel st h
  · intro s _ hs _
    exact hs
  · intro s hs _ _
    exact hs
  · intro s hs _ _ _
    unfold finalizeTop
    refine foldl_relaxEdge_induction _
      (fun t => t.graph.vertices.length = L ∧
        ∀ w, (t.graph.vertexAt w).address = a w ∧ (t.graph.vertexAt w).incidentEdges = i w)
      _ ?_ _ ?_
    · intro t e _ ht
      beta_reduce
      rw [relaxEdge_length]
      refine ⟨ht.1, fun w => ?_⟩
      rw [(relaxEdge_fixed _ t e w).1, (relaxEdge_fixed _ t e w).2]
      exact ht.2 w
    · beta_reduce
      rw [markTop_length]
      refine ⟨hs.1, fun w => ?_⟩
      rw [markTop_vertexAt]
      split
      · exact hs.2 w
      · exact hs.2 w

theorem dijkstra_fixedPart (g : Graph) (S : Nat) : (dijkstra g S).graph.fixedPart = g.fixedPart := by
  have h := dijkstraLoop_fixed g.vertices.length (fun w => (g.vertexAt w).address)
    (fun w => (g.vertexAt w).incidentEdges) (g.vertices.length + 1) (dijkstraInit g S)
    ⟨dijkstraInit_length g S, fun w => by
      rw [dijkstraInit_vertexAt]
      split <;> exact ⟨rfl, rfl⟩⟩
  exact fixedPart_eq_of_vertexAt _ _ h.1 h.2

theorem map_reset_eq_of_fixedPart (g g2 : Graph) (h : g.fixedPart = g2.fixedPart) :
    g.vertices.map Vertex.reset = g2.vertices.map Vertex.reset := by
  have key : ∀ x : Graph, x.vertices.map Vertex.reset =
      x.fixedPart.map (fun p => Vertex.mk p.1 p.2 INFINITE_DISTANCE false none 0 []) := by
    intro x
    simp [Graph.fixedPart, List.map_map, Function.comp_def, Vertex.reset]
  rw [key g, key g2, h]

theorem dijkstraInit_congr (g g2 : Graph) (S : Nat) (h : g.fixedPart = g2.fixedPart) :
    dijkstraInit g S = dijkstraInit g2 S := by
  have hm := map_reset_eq_of_fixedPart g g2 h
  unfold dijkstraInit Graph.resetDistanceOrderedVertices
  simp only [hm]

theorem dijkstra_congr (g g2 : Graph) (S : Nat) (h : g.fixedPart = g2.fixedPart) :
    dijkstra g S = dijkstra g2 S := by
  unfold dijkstra
  rw [dijkstraInit_congr g g2 S h, length_eq_of_fixedPart g g2 h]

/-- C6: running `dijkstra(g, S)` on the state left by an earlier run from any source `T`
on the same graph gives the same run state as running it on the graph as it was: the same
record (distance, parent, centrality, centrality_parents, explored) for every vertex, the
same finalized order, the same queue and the same status. -/
theorem dijkstra_rerun_same (g : Graph) (S T : Nat) :
    dijkstra (dijkstra g T).graph S = dijkstra g S :=
  dijkstra_congr _ _ S (dijkstra_fixedPart g T)

/-! Vertices out of reach -/

theorem reset_reset (v : Vertex) : v.reset.reset = v.reset := rfl

theorem reachInv_loop (g : Graph) (S : Nat) (fuel : Nat) (st : RunState)
    (h : (∀ w, (st.graph.vertexAt w).incidentEdges = (g.vertexAt w).incidentEdges) ∧
      (∀ x ∈ st.queue, g.Reachable S x) ∧
      (∀ x ∈ st.graph.distanceOrderedVertices, g.Reachable S x) ∧
      (∀ w, ¬ g.Reachable S w → st.graph.vertexAt w = (st.graph.vertexAt w).reset)) :
    (∀ w, ((dijkstraLoop fuel st).graph.vertexAt w).incidentEdges = (g.vertexAt w).incidentEdges) ∧
      (∀ x ∈ (dijkstraLoop fuel st).queue, g.Reachable S x) ∧
      (∀ x ∈ (dijkstraLoop fuel st).graph.distanceOrderedVertices, g.Reachable S x) ∧
      (∀ w, ¬ g.Reachable S w →
        (dijkstraLoop fuel st).graph.vertexAt w = ((dijkstraLoop fuel st).graph.vertexAt w).reset) := by
  refine dijkstraLoop_induction
    (fun s => (∀ w, (s.graph.vertexAt w).incidentEdges = (g.vertexAt w).incidentEdges) ∧
      (∀ x ∈ s.queue, g.Reachable S x) ∧
      (∀ x ∈ s.graph.distanceOrderedVertices, g.Reachable S x) ∧
      (∀ w, ¬ g.Reachable S w → s.graph.vertexAt w = (s.graph.vertexAt w).reset))
    ?_ ?_ ?_ fuel st h
  · intro s _ hs _
    exact hs
  · intro s hs _ _
    exact ⟨hs.1, fun x hx => hs.2.1 x (mem_of_mem_heapPop hx), hs.2.2⟩
  · intro s hs _ hne _
    obtain ⟨hinc, hq, hord, hun⟩ := hs
    have hU : g.Reachable S (heapTop s.queue) := hq _ (heapTop_mem hne)
    have hincU : ((markTop s).graph.vertexAt (heapTop s.queue)).incidentEdges =
        (g.vertexAt (heapTop s.queue)).incidentEdges := by
      rw [markTop_vertexAt]
      split
      · exact hinc _
      · exact hinc _
    unfold finalizeTop
    rw [hincU]
    refine foldl_relaxEdge_induction _
      (fun t => (∀ w, (t.graph.vertexAt w).incidentEdges = (g.vertexAt w).incidentEdges) ∧
        (∀ x ∈ t.queue, g.Reachable S x) ∧
        (∀ x ∈ t.graph.distanceOrderedVertices, g.Reachable S x) ∧
        (∀ w, ¬ g.Reachable S w → t.graph.vertexAt w = (t.graph.vertexAt w).reset)) _ ?_ _ ?_
    · intro t e he ht
      obtain ⟨tinc, tq, tord, tun⟩ := ht
      have hV : g.Reachable S (e.getAdjacentVertex (heapTop s.queue)) :=
        Relation.ReflTransGen.tail hU ⟨e, he, rfl⟩
      refine ⟨fun w => ?_, fun x hx => ?_, ?_, fun w hw => ?_⟩
      · rw [(relaxEdge_fixed _ t e w).1]
        exact tinc w
      · rcases mem_relaxEdge_queue.mp hx with hx1 | ⟨_, hx1⟩
        · exact tq x hx1
        · rw [hx1]; exact hV
      · rw [relaxEdge_order]
        exact tord
      · have hne2 : ¬ (relaxAccepts (heapTop s.queue) t e ∧
            w = e.getAdjacentVertex (heapTop s.queue) ∧ w < t.graph.vertices.length) := by
          intro h3
          apply hw
          rw [h3.2.1]
          exact hV
        rw [relaxEdge_vertexAt, if_neg hne2]
        exact tun w hw
    · refine ⟨fun w => ?_, fun x hx => hq x (mem_of_mem_markTop_queue hx), fun x hx => ?_,
        fun w hw => ?_⟩
      · rw [markTop_vertexAt]
        split
        · exact hinc w
        · exact hinc w
      · rw [markTop_order] at hx
        rcases List.mem_append.mp hx with hx1 | hx1
        · exact hord x hx1
        · rw [List.mem_singleton.mp hx1]; exact hU
      · have hne2 : ¬ (w = heapTop s.queue ∧ w < s.graph.vertices.length) := by
          intro h3
          apply hw
          rw [h3.1]
          exact hU
        rw [markTop_vertexAt, if_neg hne2]
        exact hun w hw

theorem not_reachable_of_closed (g : Graph) (S V : Nat) (C : Nat → Prop) (hS : C S)
    (hclosed : ∀ u v, C u → g.Adjacent u v → C v) (hV : ¬ C V) : ¬ g.Reachable S V := by
  have key : ∀ x, Relation.ReflTransGen g.Adjacent S x → C x := by
    intro x hx
    induction hx with
    | refl => exact hS
    | tail _ hbc ih => exact hclosed _ _ ih hbc
  exact fun h => hV (key V h)

/-- C7: a vertex that cannot be reached from `S` by following incident edges has, after
`dijkstra(g, S)`, the sentinel distance, centrality 0, no parent, no centrality parents,
`explored == false`, and is absent from the finalized order. -/
theorem dijkstra_unreachable_untouched (g : Graph) (S V : Nat) (h : ¬ g.Reachable S V) :
    ((dijkstra g S).graph.vertexAt V).distance = INFINITE_DISTANCE ∧
    ((dijkstra g S).graph.vertexAt V).centrality = 0 ∧
    ((dijkstra g S).graph.vertexAt V).parent = none ∧
    ((dijkstra g S).graph.vertexAt V).centralityParents = [] ∧
    ((dijkstra g S).graph.vertexAt V).wasExplored = false ∧
    V ∉ (dijkstra g S).graph.distanceOrderedVertices := by
  have hSV : V ≠ S := by
    intro h0
    apply h
    rw [h0]
    exact Relation.ReflTransGen.refl
  have hinv := reachInv_loop g S (g.vertices.length + 1) (dijkstraInit g S)
    ⟨fun w => by rw [dijkstraInit_vertexAt]; split <;> rfl,
     fun x hx => by
      rw [dijkstraInit_queue] at hx
      rw [List.mem_singleton.mp hx]
      exact Relation.ReflTransGen.refl,
     fun x hx => by rw [dijkstraInit_order] at hx; simp at hx,
     fun w hw => by
      have hwS : ¬ (w = S ∧ S < g.vertices.length) := by
        intro h0
        apply hw
        rw [h0.1]
        exact Relation.ReflTransGen.refl
      rw [dijkstraInit_vertexAt, if_neg hwS]
      rfl⟩
  obtain ⟨_, _, hord, hun⟩ := hinv
  have hV := hun V h
  unfold dijkstra
  refine ⟨?_, ?_, ?_, ?_, ?_, fun hmem => h (hord V hmem)⟩
  · rw [hV]; rfl
  · rw [hV]; rfl
  · rw [hV]; rfl
  · rw [hV]; rfl
  · rw [hV]; rfl

/-! Every reachable vertex is finalized -/

theorem adjacent_lt (g : Graph) (hwf : g.WellFormed) (u : Nat) (e : Edge)
    (he : e ∈ (g.vertexAt u).incidentEdges) : e.getAdjacentVertex u < g.vertices.length := by
  by_cases hu : u < g.vertices.length
  · have h := hwf _ (vertexAt_mem g u hu) e he
    unfold Edge.getAdjacentVertex
    split
    · exact h.2
    · exact h.1
  · rw [vertexAt_of_length_le g u (Nat.le_of_not_lt hu)] at he
    simp [Vertex.blank] at he

theorem closureInv_status (g : Graph) (S : Nat) (st : RunState) (s : RunStatus)
    (h : ClosureInv g S st) (hq : st.queue = []) : ClosureInv g S { st with status := s } :=
  { len := h.len, inc := h.inc, range := h.range, src := h.src, touched := h.touched,
    closed := h.closed, ordered := h.ordered, stopped := fun _ => hq }

theorem closureInv_pop (g : Graph) (S : Nat) (st : RunState) (h : ClosureInv g S st)
    (hne : st.queue ≠ []) (hexp : (st.graph.vertexAt (heapTop st.queue)).wasExplored = true) :
    ClosureInv g S { st with queue := heapPop st.graph.key st.queue } := by
  have lift : ∀ x, ((st.graph.vertexAt x).wasExplored = true ∨ x ∈ st.queue) →
      ((st.graph.vertexAt x).wasExplored = true ∨ x ∈ heapPop st.graph.key st.queue) := by
    intro x hx
    rcases hx with hx | hx
    · exact Or.inl hx
    · by_cases hxt : x = heapTop st.queue
      · rw [hxt]; exact Or.inl hexp
      · exact Or.inr (mem_heapPop_of_ne_top hx hxt)
  exact
    { len := h.len, inc := h.inc
      range := fun x hx => h.range x (mem_of_mem_heapPop hx)
      src := lift S h.src
      touched := fun v hv => lift v (h.touched v hv)
      closed := fun u hu e he => lift _ (h.closed u hu e he)
      ordered := h.ordered
      stopped := fun hs => absurd (h.stopped hs) hne }

theorem relaxInv_markTop (g : Graph) (S : Nat) (st : RunState) (h : ClosureInv g S st)
    (hrun : st.status = RunStatus.running) (hne : st.queue ≠ [])
    (_hexp : (st.graph.vertexAt (heapTop st.queue)).wasExplored = false) :
    RelaxInv g S (heapTop st.queue) [] (markTop st) := by
  have hUlt : heapTop st.queue < st.graph.vertices.length := by
    rw [h.len]; exact h.range _ (heapTop_mem hne)
  have hexpl : ∀ x, ((markTop st).graph.vertexAt x).wasExplored = true ↔
      ((st.graph.vertexAt x).wasExplored = true ∨ x = heapTop st.queue) := by
    intro x
    rw [markTop_vertexAt]
    by_cases hx : x = heapTop st.queue
    · have : x < st.graph.vertices.length := by rw [hx]; exact hUlt
      simp [hx, hUlt, Vertex.setExplored]
    · simp [hx]
  have lift : ∀ x, ((st.graph.vertexAt x).wasExplored = true ∨ x ∈ st.queue) →
      (((markTop st).graph.vertexAt x).wasExplored = true ∨ x ∈ (markTop st).queue) := by
    intro x hx
    by_cases hxt : x = heapTop st.queue
    · exact Or.inl ((hexpl x).mpr (Or.inr hxt))
    · rcases hx with hx | hx
      · exact Or.inl ((hexpl x).mpr (Or.inl hx))
      · exact Or.inr (mem_markTop_queue_of_ne hx hxt)
  have hsame : ∀ x, ((markTop st).graph.vertexAt x).distance = (st.graph.vertexAt x).distance ∧
      ((markTop st).graph.vertexAt x).parent = (st.graph.vertexAt x).parent ∧
      ((markTop st).graph.vertexAt x).incidentEdges = (st.graph.vertexAt x).incidentEdges := by
    intro x
    rw [markTop_vertexAt]
    split <;> exact ⟨rfl, rfl, rfl⟩
  exact
    { len := by rw [markTop_length]; exact h.len
      inc := fun w => by rw [(hsame w).2.2]; exact h.inc w
      range := fun x hx => h.range x (mem_of_mem_markTop_queue hx)
      src := lift S h.src
      touched := fun v hv => by
        rw [(hsame v).1, (hsame v).2.1] at hv
        exact lift v (h.touched v hv)
      closedOther := fun u hu huexp e he => by
        rcases (hexpl u).mp huexp with h1 | h1
        · exact lift _ (h.closed u h1 e he)
        · exact absurd h1 hu
      closedDone := fun e he => by simp at he
      ordered := fun v hv => by
        rw [markTop_order]
        rcases (hexpl v).mp hv with h1 | h1
        · exact List.mem_append_left _ (h.ordered v h1)
        · rw [h1]; simp
      running := by rw [markTop_status]; exact hrun }

theorem relaxInv_relaxEdge (g : Graph) (hwf : g.WellFormed) (S U : Nat) (done : List Edge)
    (st : RunState) (e : Edge) (he : e ∈ (g.vertexAt U).incidentEdges)
    (h : RelaxInv g S U done st) : RelaxInv g S U (done ++ [e]) (relaxEdge U st e) := by
  have hV : e.getAdjacentVertex U < g.vertices.length := adjacent_lt g hwf U e he
  have lift : ∀ x, ((st.graph.vertexAt x).wasExplored = true ∨ x ∈ st.queue) →
      (((relaxEdge U st e).graph.vertexAt x).wasExplored = true ∨
        x ∈ (relaxEdge U st e).queue) := by
    intro x hx
    rw [relaxEdge_wasExplored]
    rcases hx with hx | hx
    · exact Or.inl hx
    · exact Or.inr (mem_relaxEdge_queue.mpr (Or.inl hx))
  have hmod : ((st.graph.vertexAt U).distance + e.gas) % UINT64_MOD ≤ INFINITE_DISTANCE := by
    have : ((st.graph.vertexAt U).distance + e.gas) % UINT64_MOD < UINT64_MOD :=
      Nat.mod_lt _ (by unfold UINT64_MOD; exact Nat.pos_pow_of_pos _ (by decide))
    unfold UINT64_MOD at this ⊢
    unfold INFINITE_DISTANCE
    omega
  exact
    { len := by rw [relaxEdge_length]; exact h.len
      inc := fun w => by rw [(relaxEdge_fixed U st e w).1]; exact h.inc w
      range := fun x hx => by
        rcases mem_relaxEdge_queue.mp hx with h1 | ⟨_, h1⟩
        · exact h.range x h1
        · rw [h1]; exact hV
      src := lift S h.src
      touched := fun v hv => by
        by_cases hc : relaxAccepts U st e ∧ v = e.getAdjacentVertex U ∧
            v < st.graph.vertices.length
        · exact Or.inr (mem_relaxEdge_queue.mpr (Or.inr ⟨hc.1, hc.2.1⟩))
        · rw [relaxEdge_vertexAt, if_neg hc] at hv
          exact lift v (h.touched v hv)
      closedOther := fun u hu huexp e2 he2 => by
        rw [relaxEdge_wasExplored] at huexp
        exact lift _ (h.closedOther u hu huexp e2 he2)
      closedDone := fun e2 he2 => by
        rcases List.mem_append.mp he2 with h1 | h1
        · exact lift _ (h.closedDone e2 h1)
        · rw [List.mem_singleton.mp h1]
          by_cases hexp : (st.graph.vertexAt (e.getAdjacentVertex U)).wasExplored = true
          · exact lift _ (Or.inl hexp)
          · have hexp2 : (st.graph.vertexAt (e.getAdjacentVertex U)).wasExplored = false := by
              simpa using hexp
            by_cases hle : ((st.graph.vertexAt U).distance + e.gas) % UINT64_MOD ≤
                (st.graph.vertexAt (e.getAdjacentVertex U)).distance
            · exact Or.inr (mem_relaxEdge_queue.mpr (Or.inr ⟨⟨hexp2, hle⟩, rfl⟩))
            · have hd : (st.graph.vertexAt (e.getAdjacentVertex U)).distance ≠
                  INFINITE_DISTANCE := by
                intro h0
                rw [h0] at hle
                exact hle hmod
              exact lift _ (h.touched _ (Or.inl hd))
      ordered := fun v hv => by
        rw [relaxEdge_wasExplored] at hv
        rw [relaxEdge_order]
        exact h.ordered v hv
      running := by rw [relaxEdge_status]; exact h.running }

theorem relaxInv_foldl (g : Graph) (hwf : g.WellFormed) (S U : Nat) :
    ∀ (es done : List Edge) (st : RunState),
      (∀ e ∈ es, e ∈ (g.vertexAt U).incidentEdges) → RelaxInv g S U done st →
      RelaxInv g S U (done ++ es) (es.foldl (relaxEdge U) st)
  | [], done, st, _, h => by simpa using h
  | e :: es, done, st, hes, h => by
    rw [List.foldl_cons]
    have h1 := relaxInv_relaxEdge g hwf S U done st e (hes e (List.mem_cons_self _ _)) h
    have h2 := relaxInv_foldl g hwf S U es (done ++ [e]) _
      (fun e2 he2 => hes e2 (List.mem_cons_of_mem _ he2)) h1
    simpa using h2

theorem closureInv_finalizeTop (g : Graph) (hwf : g.WellFormed) (S : Nat) (st : RunState)
    (h : ClosureInv g S st) (hrun : st.status = RunStatus.running) (hne : st.queue ≠ [])
    (hexp : (st.graph.vertexAt (heapTop st.queue)).wasExplored = false) :
    ClosureInv g S (finalizeTop st) := by
  have hm := relaxInv_markTop g S st h hrun hne hexp
  have hincU : ((markTop st).graph.vertexAt (heapTop st.queue)).incidentEdges =
      (g.vertexAt (heapTop st.queue)).incidentEdges := hm.inc _
  have hf := relaxInv_foldl g hwf S (heapTop st.queue)
    (g.vertexAt (heapTop st.queue)).incidentEdges [] (markTop st) (fun e he => he) hm
  have hfin : finalizeTop st =
      (g.vertexAt (heapTop st.queue)).incidentEdges.foldl (relaxEdge (heapTop st.queue))
        (markTop st) := by
    unfold finalizeTop
    rw [hincU]
  rw [← hfin] at hf
  rw [List.nil_append] at hf
  exact
    { len := hf.len, inc := hf.inc, range := hf.range, src := hf.src, touched := hf.touched
      closed := fun u hu e he => by
        by_cases huU : u = heapTop st.queue
        · rw [huU] at he ⊢
          exact hf.closedDone e he
        · exact hf.closedOther u huU hu e he
      ordered := hf.ordered
      stopped := fun hs => absurd hf.running hs }

theorem closureInv_init (g : Graph) (S : Nat) (hS : S < g.vertices.length) :
    ClosureInv g S (dijkstraInit g S) := by
  have hexp : ∀ w, ((dijkstraInit g S).graph.vertexAt w).wasExplored = false := by
    intro w
    rw [dijkstraInit_vertexAt]
    split <;> rfl
  exact
    { len := dijkstraInit_length g S
      inc := fun w => by rw [dijkstraInit_vertexAt]; split <;> rfl
      range := fun x hx => by
        rw [dijkstraInit_queue] at hx
        rw [List.mem_singleton.mp hx]; exact hS
      src := Or.inr (by rw [dijkstraInit_queue]; simp)
      touched := fun v hv => by
        by_cases hv2 : v = S
        · right; rw [dijkstraInit_queue, hv2]; simp
        · have hc : ¬ (v = S ∧ S < g.vertices.length) := fun h0 => hv2 h0.1
          rw [dijkstraInit_vertexAt, if_neg hc] at hv
          simp [Vertex.reset] at hv
      closed := fun u hu => by rw [hexp u] at hu; simp at hu
      ordered := fun v hv => by rw [hexp v] at hv; simp at hv
      stopped := fun hs => absurd (dijkstraInit_status g S) hs }

theorem closureInv_loop (g : Graph) (hwf : g.WellFormed) (S : Nat) (fuel : Nat) (st : RunState)
    (h : ClosureInv g S st) : ClosureInv g S (dijkstraLoop fuel st) :=
  dijkstraLoop_induction (ClosureInv g S)
    (fun s x hs hq => closureInv_status g S s x hs hq)
    (fun s hs hne hexp => closureInv_pop g S s hs hne hexp)
    (fun s hs hrun hne hexp => closureInv_finalizeTop g hwf S s hs hrun hne hexp) fuel st h

theorem unexploredCount_congr (g g2 : Graph) (hlen : g.vertices.length = g2.vertices.length)
    (h : ∀ w, (g.vertexAt w).wasExplored = (g2.vertexAt w).wasExplored) :
    g.unexploredCount = g2.unexploredCount := by
  have hmap : g.vertices.map (fun v => v.wasExplored) = g2.vertices.map (fun v => v.wasExplored) := by
    apply List.ext_getElem
    · simp [hlen]
    · intro i h1 h2
      have hi1 : i < g.vertices.length := by simpa using h1
      have hi2 : i < g2.vertices.length := by simpa using h2
      have e1 : g.vertexAt i = g.vertices[i] := by
        simp [Graph.vertexAt, List.getD_eq_getElem?_getD, List.getElem?_eq_getElem hi1]
      have e2 : g2.vertexAt i = g2.vertices[i] := by
        simp [Graph.vertexAt, List.getD_eq_getElem?_getD, List.getElem?_eq_getElem hi2]
      have := h i
      rw [e1, e2] at this
      simpa using this
  have key : ∀ x : Graph, x.unexploredCount =
      (x.vertices.map (fun v => v.wasExplored)).countP (fun b => !b) := by
    intro x
    rw [List.countP_map]
    rfl
  rw [key g, key g2, hmap]

theorem unexploredCount_relaxEdge (U : Nat) (st : RunState) (e : Edge) :
    (relaxEdge U st e).graph.unexploredCount = st.graph.unexploredCount :=
  unexploredCount_congr _ _ (relaxEdge_length U st e) (relaxEdge_wasExplored U st e)

theorem unexploredCount_markTop (st : RunState)
    (hlt : heapTop st.queue < st.graph.vertices.length)
    (hexp : (st.graph.vertexAt (heapTop st.queue)).wasExplored = false) :
    (markTop st).graph.unexploredCount + 1 = st.graph.unexploredCount := by
  have e1 : st.graph.vertexAt (heapTop st.queue) = st.graph.vertices[heapTop st.queue] := by
    simp [Graph.vertexAt, List.getD_eq_getElem?_getD, List.getElem?_eq_getElem hlt]
  have hpos : 0 < st.graph.vertices.countP (fun v => !v.wasExplored) := by
    rw [List.countP_pos_iff]
    refine ⟨st.graph.vertices[heapTop st.queue], List.getElem_mem hlt, ?_⟩
    rw [← e1, hexp]
    rfl
  have hcount : (markTop st).graph.unexploredCount =
      st.graph.vertices.countP (fun v => !v.wasExplored) - 1 := by
    unfold markTop Graph.unexploredCount Graph.updateVertex Graph.pushDistanceOrderedVertex
    simp only
    rw [List.countP_set _ _ _ _ hlt]
    have h2 : (st.graph.vertices[heapTop st.queue]).wasExplored = false := by
      rw [← e1]; exact hexp
    simp [h2, Vertex.setExplored]
  rw [hcount]
  unfold Graph.unexploredCount
  omega

theorem unexploredCount_finalizeTop (st : RunState)
    (hlt : heapTop st.queue < st.graph.vertices.length)
    (hexp : (st.graph.vertexAt (heapTop st.queue)).wasExplored = false) :
    (finalizeTop st).graph.unexploredCount + 1 = st.graph.unexploredCount := by
  have h : (finalizeTop st).graph.unexploredCount = (markTop st).graph.unexploredCount := by
    unfold finalizeTop
    exact foldl_relaxEdge_induction _
      (fun t => t.graph.unexploredCount = (markTop st).graph.unexploredCount) _
      (fun t e _ ht => by
        beta_reduce at ht ⊢
        rw [unexploredCount_relaxEdge]
        exact ht) _ rfl
  rw [h]
  exact unexploredCount_markTop st hlt hexp

theorem dijkstraLoop_stops (g : Graph) (hwf : g.WellFormed) (S : Nat) :
    ∀ (fuel : Nat) (st : RunState), ClosureInv g S st → st.graph.unexploredCount < fuel →
      (dijkstraLoop fuel st).status ≠ RunStatus.running
  | 0, _, _, hc => absurd hc (Nat.not_lt_zero _)
  | fuel + 1, st, h, hc => by
    rw [dijkstraLoop_succ]
    split
    · simp
    · rename_i hemp
      have hne : st.queue ≠ [] := fun h0 => hemp (List.isEmpty_iff.mpr h0)
      split
      · rename_i hrun
        have h1 : ClosureInv g S (skipExplored st.queue.length st) :=
          skipExplored_induction (ClosureInv g S)
            (fun s x hs hq => closureInv_status g S s x hs hq)
            (fun s hs hne2 hexp => closureInv_pop g S s hs hne2 hexp) _ st h
        obtain ⟨_, hne1, hexp1⟩ := skipExplored_running _ st (Nat.le_refl _) hne hrun
        have hlt : heapTop (skipExplored st.queue.length st).queue <
            (skipExplored st.queue.length st).graph.vertices.length := by
          rw [h1.len]
          exact h1.range _ (heapTop_mem hne1)
        have hcnt := unexploredCount_finalizeTop _ hlt hexp1
        rw [skipExplored_graph] at hcnt
        exact dijkstraLoop_stops g hwf S fuel _
          (closureInv_finalizeTop g hwf S _ h1 hrun hne1 hexp1) (by omega)
      · rename_i hrun
        exact hrun

theorem dijkstra_stops (g : Graph) (hwf : g.WellFormed) (S : Nat) (hS : S < g.vertices.length) :
    (dijkstra g S).status ≠ RunStatus.running := by
  unfold dijkstra
  apply dijkstraLoop_stops g hwf S _ _ (closureInv_init g S hS)
  have h1 : (dijkstraInit g S).graph.unexploredCount ≤ (dijkstraInit g S).graph.vertices.length :=
    List.countP_le_length _
  rw [dijkstraInit_length] at h1
  omega

/-- C8: on a well-formed graph and for a source `S` of it, the run ends (its status is no
longer `running`) and then every vertex reachable from `S` by following incident edges has
`explored == true` and appears in the finalized order. -/
theorem dijkstra_reachable_finalized (g : Graph) (S V : Nat) (hwf : g.WellFormed)
    (hS : S < g.vertices.length) (hreach : g.Reachable S V) :
    (dijkstra g S).status ≠ RunStatus.running ∧
    ((dijkstra g S).graph.vertexAt V).wasExplored = true ∧
    V ∈ (dijkstra g S).graph.distanceOrderedVertices := by
  have hstop := dijkstra_stops g hwf S hS
  have hinv : ClosureInv g S (dijkstra g S) :=
    closureInv_loop g hwf S _ _ (closureInv_init g S hS)
  have hq : (dijkstra g S).queue = [] := hinv.stopped hstop
  have hexp : ∀ x, Relation.ReflTransGen g.Adjacent S x →
      ((dijkstra g S).graph.vertexAt x).wasExplored = true := by
    intro x hx
    induction hx with
    | refl =>
      rcases hinv.src with h1 | h1
      · exact h1
      · rw [hq] at h1; simp at h1
    | tail _ hbc ih =>
      obtain ⟨e, he, hadj⟩ := hbc
      rcases hinv.closed _ ih e he with h1 | h1
      · rw [hadj] at h1; exact h1
      · rw [hq] at h1; simp at h1
  exact ⟨hstop, hexp V hreach, hinv.ordered V (hexp V hreach)⟩

/-! The claims on concrete graphs -/

/-- C1: on a well-formed graph of four addresses with gas values below 10 and no
parallel edges, the run from A leaves `C.distance == 7` although the walk A->D->B->C
along incident edges has total gas 1 + 1 + 3 = 5: the entry of C is on top of the queue
when B, whose distance was lowered while its older entry was inside the heap, should be.
The same happens on a graph of three addresses with parallel edges (8 instead of 7). -/
theorem dijkstra_distance_not_minimal :
    (staleKeyGraph.WellFormed ∧
      staleKeyGraph.walkEnd 0 [transaction 0 3 1, transaction 3 1 1, transaction 1 2 3] = some 2 ∧
      walkGas [transaction 0 3 1, transaction 3 1 1, transaction 1 2 3] = 5 ∧
      ((dijkstra staleKeyGraph 0).graph.vertexAt 2).distance = 7 ∧
      ((dijkstra staleKeyGraph 0).graph.vertexAt 2).wasExplored = true ∧
      ((dijkstra staleKeyGraph 0).graph.vertexAt 1).distance = 2 ∧
      (dijkstra staleKeyGraph 0).graph.distanceOrderedVertices = [0, 3, 2, 1]) ∧
    (staleKeyParallelGraph.WellFormed ∧
      staleKeyParallelGraph.walkEnd 0 [transaction 0 1 5, transaction 1 2 2] = some 2 ∧
      walkGas [transaction 0 1 5, transaction 1 2 2] = 7 ∧
      ((dijkstra staleKeyParallelGraph 0).graph.vertexAt 2).distance = 8 ∧
      ((dijkstra staleKeyParallelGraph 0).graph.vertexAt 2).wasExplored = true ∧
      ((dijkstra staleKeyParallelGraph 0).graph.vertexAt 1).distance = 5) := by
  decide

/-- C2: in scenario A the reached non-source vertex C ends with centrality 2, while the
sum of the centralities of its predecessors by final distances (only B: 5 + 3 = 8) is 1:
the contribution accepted through A->C at distance 10 is never taken back. -/
theorem dijkstra_centrality_not_predecessor_sum :
    ((dijkstra scenarioA 0).graph.vertexAt 2).wasExplored = true ∧
    ((dijkstra scenarioA 0).graph.vertexAt 2).centrality = 2 ∧
    (dijkstra scenarioA 0).graph.predecessorCentralitySum 2 = 1 ∧
    ((dijkstra scenarioA 0).graph.vertexAt 2).centralityParents = [0, 1] := by
  decide

/-- C3: on a well-formed graph of four addresses without parallel edges the finalized
order is A, B, D, C although the final distances are `D.distance == 7` and
`C.distance == 5`; on a graph of three addresses with parallel edges the order is A, C, B
with `C.distance == 3` and `B.distance == 1`. -/
theorem dijkstra_order_not_monotone :
    (staleOrderGraph.WellFormed ∧
      (dijkstra staleOrderGraph 0).graph.distanceOrderedVertices = [0, 1, 3, 2] ∧
      ((dijkstra staleOrderGraph 0).graph.vertexAt 3).distance = 7 ∧
      ((dijkstra staleOrderGraph 0).graph.vertexAt 2).distance = 5) ∧
    (staleOrderParallelGraph.WellFormed ∧
      (dijkstra staleOrderParallelGraph 0).graph.distanceOrderedVertices = [0, 2, 1] ∧
      ((dijkstra staleOrderParallelGraph 0).graph.vertexAt 2).distance = 3 ∧
      ((dijkstra staleOrderParallelGraph 0).graph.vertexAt 1).distance = 1) := by
  decide

/-- C5: with two transactions A->B the vertex B is pushed twice; after B is finalized the
skip loop pops its second entry, which empties the queue, and reads `top()` of the empty
queue: the run does not end by the return of line 30. -/
theorem dijkstra_reads_top_of_empty_queue :
    (dijkstra twoTransfersGraph 0).status = RunStatus.emptyQueueRead ∧
    (dijkstra twoTransfersGraph 0).queue = [] ∧
    (dijkstra twoTransfersGraph 0).graph.distanceOrderedVertices = [0, 1] := by
  decide

/-- C9: scenario A run from A, with either way of filling the incident lists: the
distances and the parent of C are as stated, the centrality of A and of B is 1, and the
centrality of C is 2, not 1. -/
theorem scenarioA_result :
    (((dijkstra scenarioA 0).graph.vertexAt 1).distance = 5 ∧
      ((dijkstra scenarioA 0).graph.vertexAt 2).distance = 8 ∧
      ((dijkstra scenarioA 0).graph.vertexAt 2).parent = some 1 ∧
      ((dijkstra scenarioA 0).graph.vertexAt 0).centrality = 1 ∧
      ((dijkstra scenarioA 0).graph.vertexAt 1).centrality = 1 ∧
      ((dijkstra scenarioA 0).graph.vertexAt 2).centrality = 2) ∧
    (((dijkstra scenarioAUndirected 0).graph.vertexAt 1).distance = 5 ∧
      ((dijkstra scenarioAUndirected 0).graph.vertexAt 2).distance = 8 ∧
      ((dijkstra scenarioAUndirected 0).graph.vertexAt 2).parent = some 1 ∧
      ((dijkstra scenarioAUndirected 0).graph.vertexAt 0).centrality = 1 ∧
      ((dijkstra scenarioAUndirected 0).graph.vertexAt 1).centrality = 1 ∧
      ((dijkstra scenarioAUndirected 0).graph.vertexAt 2).centrality = 2) := by
  decide

/-- C10: scenario B run from A, with either way of filling the incident lists: D ends
with distance 5, centrality 2 = 1 + 1 and centrality parents B and C, and the run stops
at a `top()` of the empty queue instead of returning. -/
theorem scenarioB_result :
    (((dijkstra scenarioB 0).graph.vertexAt 3).distance = 5 ∧
      ((dijkstra scenarioB 0).graph.vertexAt 3).centrality = 2 ∧
      ((dijkstra scenarioB 0).graph.vertexAt 1).centrality +
        ((dijkstra scenarioB 0).graph.vertexAt 2).centrality = 2 ∧
      (∀ x, x ∈ ((dijkstra scenarioB 0).graph.vertexAt 3).centralityParents ↔ x = 1 ∨ x = 2) ∧
      (dijkstra scenarioB 0).status = RunStatus.emptyQueueRead) ∧
    (((dijkstra scenarioBUndirected 0).graph.vertexAt 3).distance = 5 ∧
      ((dijkstra scenarioBUndirected 0).graph.vertexAt 3).centrality = 2 ∧
      ((dijkstra scenarioBUndirected 0).graph.vertexAt 1).centrality +
        ((dijkstra scenarioBUndirected 0).graph.vertexAt 2).centrality = 2 ∧
      (∀ x, x ∈ ((dijkstra scenarioBUndirected 0).graph.vertexAt 3).centralityParents ↔
        x = 1 ∨ x = 2) ∧
      (dijkstra scenarioBUndirected 0).status = RunStatus.emptyQueueRead) := by
  have h1 : ((dijkstra scenarioB 0).graph.vertexAt 3).centralityParents = [1, 2] := by decide
  have h2 : ((dijkstra scenarioBUndirected 0).graph.vertexAt 3).centralityParents = [1, 2] := by
    decide
  rw [h1, h2]
  refine ⟨⟨by decide, by decide, by decide, fun x => by simp, by decide⟩,
    ⟨by decide, by decide, by decide, fun x => by simp, by decide⟩⟩

/-- Witness of C4: a source with a self-loop, parallel edges and a cycle back to it,
entered with traversal state of an earlier use. -/
theorem dijkstra_source_distance_centrality_witness :
    0 < loopedSourceGraph.vertices.length ∧
    ((dijkstra loopedSourceGraph 0).graph.vertexAt 0).distance = 0 ∧
    ((dijkstra loopedSourceGraph 0).graph.vertexAt 0).centrality = 1 :=
  ⟨by decide, dijkstra_source_distance_centrality loopedSourceGraph 0 (by decide)⟩

theorem scenarioC_E_unreachable : ¬ scenarioC.Reachable 0 3 := by
  refine not_reachable_of_closed scenarioC 0 3 (fun x => x < 3) (by decide) ?_ (by decide)
  intro u v hu hadj
  obtain ⟨e, he, hv⟩ := hadj
  have hall : ∀ u < 3, ∀ e ∈ (scenarioC.vertexAt u).incidentEdges, e.getAdjacentVertex u < 3 := by
    decide
  rw [← hv]
  exact hall u hu e he

/-- Witness of C7: scenario C, the vertex E without edges, run from A. -/
theorem dijkstra_unreachable_untouched_witness :
    ¬ scenarioC.Reachable 0 3 ∧
    ((dijkstra scenarioC 0).graph.vertexAt 3).distance = INFINITE_DISTANCE ∧
    ((dijkstra scenarioC 0).graph.vertexAt 3).centrality = 0 ∧
    ((dijkstra scenarioC 0).graph.vertexAt 3).parent = none ∧
    ((dijkstra scenarioC 0).graph.vertexAt 3).centralityParents = [] ∧
    ((dijkstra scenarioC 0).graph.vertexAt 3).wasExplored = false ∧
    3 ∉ (dijkstra scenarioC 0).graph.distanceOrderedVertices :=
  ⟨scenarioC_E_unreachable, dijkstra_unreachable_untouched scenarioC 0 3 scenarioC_E_unreachable⟩

theorem scenarioA_C_reachable : scenarioA.Reachable 0 2 := by
  have h01 : scenarioA.Adjacent 0 1 := ⟨transaction 0 1 5, by decide, by decide⟩
  have h12 : scenarioA.Adjacent 1 2 := ⟨transaction 1 2 3, by decide, by decide⟩
  exact (Relation.ReflTransGen.single h01).tail h12

/-- Witness of C8: scenario A, the vertex C, run from A. -/
theorem dijkstra_reachable_finalized_witness :
    scenarioA.WellFormed ∧ 0 < scenarioA.vertices.length ∧ scenarioA.Reachable 0 2 ∧
    (dijkstra scenarioA 0).status ≠ RunStatus.running ∧
    ((dijkstra scenarioA 0).graph.vertexAt 2).wasExplored = true ∧
    2 ∈ (dijkstra scenarioA 0).graph.distanceOrderedVertices :=
  ⟨by decide, by decide, scenarioA_C_reachable,
    dijkstra_reachable_finalized scenarioA 0 2 (by decide) (by decide) scenarioA_C_reachable⟩

/-! Frame, single steps, and the comparison of scores -/

/-- C12: a run changes only traversal-scoped state: after `dijkstra(g, S)` the graph has
the same number of vertices, the same addresses in the same places and, for every vertex,
the same incident-edge list, each edge with the same source, destination, value, gas,
gas price and explored flag (the whole edge record). -/
theorem dijkstra_frame (g : Graph) (S : Nat) :
    (dijkstra g S).graph.vertices.length = g.vertices.length ∧
    (dijkstra g S).graph.vertices.map (fun v => v.address) =
      g.vertices.map (fun v => v.address) ∧
    (dijkstra g S).graph.vertices.map (fun v => v.incidentEdges) =
      g.vertices.map (fun v => v.incidentEdges) ∧
    ∀ w, ((dijkstra g S).graph.vertexAt w).address = (g.vertexAt w).address ∧
      ((dijkstra g S).graph.vertexAt w).incidentEdges = (g.vertexAt w).incidentEdges := by
  have h := dijkstra_fixedPart g S
  refine ⟨length_eq_of_fixedPart _ _ h, ?_, ?_, vertexAt_fixed_of_fixedPart _ _ h⟩
  · have h1 := congrArg (List.map Prod.fst) h
    simpa [Graph.fixedPart, List.map_map, Function.comp_def] using h1
  · have h2 := congrArg (List.map Prod.snd) h
    simpa [Graph.fixedPart, List.map_map, Function.comp_def] using h2

/-- C13, as amended: the relaxation step for a finalized vertex `U` and an edge `e` with
`V = e.getAdjacentVertex(U)` a vertex of the graph, the candidate being the 64-bit sum
`U.distance + e.gas`. If `V` is unexplored and the candidate is at most `V.distance`, the
step sets `V.distance` to the candidate and `V.parent` to `U`, adds exactly one queue
entry, for `V`, sets `V.centrality` to the `double` sum of `V.centrality` and
`U.centrality`, which is their exact sum whenever that sum is at most `2 ^ 53`, inserts
`U` into `V.centrality_parents`, and leaves every other vertex alone. If `V` is explored
or the candidate exceeds `V.distance`, the step changes nothing. -/
theorem relaxEdge_step (U : Nat) (st : RunState) (e : Edge)
    (hU : (st.graph.vertexAt U).wasExplored = true)
    (hV : e.getAdjacentVertex U < st.graph.vertices.length) :
    (((st.graph.vertexAt (e.getAdjacentVertex U)).wasExplored = false ∧
        ((st.graph.vertexAt U).distance + e.gas) % UINT64_MOD ≤
          (st.graph.vertexAt (e.getAdjacentVertex U)).distance) →
      ((relaxEdge U st e).graph.vertexAt (e.getAdjacentVertex U)).distance =
          ((st.graph.vertexAt U).distance + e.gas) % UINT64_MOD ∧
        ((relaxEdge U st e).graph.vertexAt (e.getAdjacentVertex U)).parent = some U ∧
        ((relaxEdge U st e).graph.vertexAt (e.getAdjacentVertex U)).centrality =
          doubleAdd (st.graph.vertexAt (e.getAdjacentVertex U)).centrality
            (st.graph.vertexAt U).centrality ∧
        ((st.graph.vertexAt (e.getAdjacentVertex U)).centrality +
            (st.graph.vertexAt U).centrality ≤ 2 ^ 53 →
          ((relaxEdge U st e).graph.vertexAt (e.getAdjacentVertex U)).centrality =
            (st.graph.vertexAt (e.getAdjacentVertex U)).centrality +
              (st.graph.vertexAt U).centrality) ∧
        (∀ x, x ∈ ((relaxEdge U st e).graph.vertexAt (e.getAdjacentVertex U)).centralityParents ↔
          x = U ∨ x ∈ (st.graph.vertexAt (e.getAdjacentVertex U)).centralityParents) ∧
        ((relaxEdge U st e).graph.vertexAt (e.getAdjacentVertex U)).wasExplored = false ∧
        (relaxEdge U st e).queue.Perm (e.getAdjacentVertex U :: st.queue) ∧
        (∀ w, w ≠ e.getAdjacentVertex U →
          (relaxEdge U st e).graph.vertexAt w = st.graph.vertexAt w) ∧
        ((relaxEdge U st e).graph.vertexAt U).centrality = (st.graph.vertexAt U).centrality) ∧
    (((st.graph.vertexAt (e.getAdjacentVertex U)).wasExplored = true ∨
        (st.graph.vertexAt (e.getAdjacentVertex U)).distance <
          ((st.graph.vertexAt U).distance + e.gas) % UINT64_MOD) →
      relaxEdge U st e = st) := by
  constructor
  · intro hacc
    have hacc2 : relaxAccepts U st e := hacc
    have hrec : (relaxEdge U st e).graph.vertexAt (e.getAdjacentVertex U) =
        relaxedVertex U st e := by
      rw [relaxEdge_vertexAt, if_pos ⟨hacc2, rfl, hV⟩]
    rw [hrec]
    refine ⟨rfl, rfl, rfl, fun hle => doubleAdd_of_le _ _ hle, ?_, hacc.1, ?_, ?_, ?_⟩
    · intro x
      unfold relaxedVertex
      simp only
      split
      · rename_i hmem
        constructor
        · exact Or.inr
        · rintro (h1 | h1)
          · rw [h1]; exact hmem
          · exact h1
      · simp only [List.mem_append, List.mem_singleton]
        constructor
        · rintro (h1 | h1)
          · exact Or.inr h1
          · exact Or.inl h1
        · rintro (h1 | h1)
          · exact Or.inr h1
          · exact Or.inl h1
    · rw [relaxEdge_queue, if_pos hacc2]
      exact heapPush_perm _ _ _
    · intro w hw
      rw [relaxEdge_vertexAt, if_neg (fun h => hw h.2.1)]
    · rw [relaxEdge_of_explored U st e U hU]
  · intro hrej
    rcases hrej with h1 | h1
    · simp [relaxEdge, h1]
    · by_cases h2 : (st.graph.vertexAt (e.getAdjacentVertex U)).wasExplored = true
      · simp [relaxEdge, h2]
      · simp [relaxEdge, h2, Nat.not_le.mpr h1]

/-- C13, as stated, fails: on the chain `tripleChainGraph` run from v0, the third
relaxation along v33->v34 is accepted (v33 finalized, v34 unexplored, candidate 34 equal
to the distance of v34) with `v34.centrality == 2 * 3^33` and `v33.centrality == 3^33`; the
step leaves `v34.centrality == 16677181699666568`, not the exact sum
`3^34 = 16677181699666569`, which no `double` holds. The state is the one the run is in
there: the step gives the state after 34 iterations of the main loop. -/
theorem relaxEdge_centrality_rounds :
    tripleChainGraph.WellFormed ∧
    dijkstraLoop 34 (dijkstraInit tripleChainGraph 0) =
      relaxEdge 33 tripleChainState (transaction 33 34 1) ∧
    (tripleChainState.graph.vertexAt 33).wasExplored = true ∧
    transaction 33 34 1 ∈ (tripleChainState.graph.vertexAt 33).incidentEdges ∧
    (transaction 33 34 1).getAdjacentVertex 33 = 34 ∧
    (tripleChainState.graph.vertexAt 34).wasExplored = false ∧
    ((tripleChainState.graph.vertexAt 33).distance + (transaction 33 34 1).gas) % UINT64_MOD ≤
      (tripleChainState.graph.vertexAt 34).distance ∧
    (tripleChainState.graph.vertexAt 33).centrality = 5559060566555523 ∧
    (tripleChainState.graph.vertexAt 34).centrality = 11118121133111046 ∧
    ((relaxEdge 33 tripleChainState (transaction 33 34 1)).graph.vertexAt 34).centrality =
      16677181699666568 ∧
    ((relaxEdge 33 tripleChainState (transaction 33 34 1)).graph.vertexAt 34).centrality ≠
      (tripleChainState.graph.vertexAt 34).centrality +
        (tripleChainState.graph.vertexAt 33).centrality ∧
    ((dijkstra tripleChainGraph 0).graph.vertexAt 34).centrality = 16677181699666568 := by
  decide

/-- C14: on `staleOrderGraph`, when the third iteration of the main loop starts, the run
is still going, `top()` is D (unexplored, distance 7) and is the vertex the iteration
appends to the finalized order, while the unexplored vertex C has an entry in the queue
and distance 5. -/
theorem dijkstra_top_not_minimal :
    (dijkstraLoop 2 (dijkstraInit staleOrderGraph 0)).status = RunStatus.running ∧
    (dijkstraLoop 2 (dijkstraInit staleOrderGraph 0)).queue = [3, 2, 3, 2] ∧
    heapTop (dijkstraLoop 2 (dijkstraInit staleOrderGraph 0)).queue = 3 ∧
    ((dijkstraLoop 2 (dijkstraInit staleOrderGraph 0)).graph.vertexAt 3).wasExplored = false ∧
    ((dijkstraLoop 2 (dijkstraInit staleOrderGraph 0)).graph.vertexAt 3).distance = 7 ∧
    2 ∈ (dijkstraLoop 2 (dijkstraInit staleOrderGraph 0)).queue ∧
    ((dijkstraLoop 2 (dijkstraInit staleOrderGraph 0)).graph.vertexAt 2).wasExplored = false ∧
    ((dijkstraLoop 2 (dijkstraInit staleOrderGraph 0)).graph.vertexAt 2).distance = 5 ∧
    (dijkstraLoop 2 (dijkstraInit staleOrderGraph 0)).graph.distanceOrderedVertices = [0, 1] ∧
    (dijkstraLoop 3 (dijkstraInit staleOrderGraph 0)).graph.distanceOrderedVertices = [0, 1, 3] := by
  decide

theorem setExplored_of_explored (v : Vertex) (h : v.wasExplored = true) :
    v.setExplored true = v := by
  cases v
  simp only [Vertex.setExplored] at h ⊢
  simp [h]

theorem markTop_of_explored (st : RunState) (w : Nat)
    (h : (st.graph.vertexAt w).wasExplored = true) :
    (markTop st).graph.vertexAt w = st.graph.vertexAt w := by
  rw [markTop_vertexAt]
  split
  · exact setExplored_of_explored _ h
  · rfl

theorem finalizeTop_of_explored (st : RunState) (w : Nat)
    (h : (st.graph.vertexAt w).wasExplored = true) :
    (finalizeTop st).graph.vertexAt w = st.graph.vertexAt w := by
  unfold finalizeTop
  refine foldl_relaxEdge_induction _ (fun t => t.graph.vertexAt w = st.graph.vertexAt w) _ ?_ _
    (markTop_of_explored st w h)
  intro t e _ ht
  beta_reduce at ht ⊢
  rw [relaxEdge_of_explored _ _ _ _ (by rw [ht]; exact h)]
  exact ht

theorem dijkstraLoop_of_explored (w : Nat) (r : Vertex) (hr : r.wasExplored = true) :
    ∀ (fuel : Nat) (st : RunState), st.graph.vertexAt w = r →
      (dijkstraLoop fuel st).graph.vertexAt w = r := by
  intro fuel st h
  refine dijkstraLoop_induction (fun s => s.graph.vertexAt w = r) ?_ ?_ ?_ fuel st h
  · intro s _ hs _
    exact hs
  · intro s hs _ _
    exact hs
  · intro s hs _ _ _
    beta_reduce at hs ⊢
    rw [finalizeTop_of_explored s w (by rw [hs]; exact hr)]
    exact hs

/-- C15: a vertex that is explored in some state of a run keeps its whole record
(distance, parent, centrality, centrality parents, and the explored flag itself) through
every later step: a relaxation along any edge from any vertex, the finalization of the top
of the queue, the skipping of explored entries, and any number of further iterations of
the main loop. -/
theorem explored_vertex_frozen (st : RunState) (w : Nat)
    (h : (st.graph.vertexAt w).wasExplored = true) :
    (∀ U e, (relaxEdge U st e).graph.vertexAt w = st.graph.vertexAt w) ∧
    (markTop st).graph.vertexAt w = st.graph.vertexAt w ∧
    (finalizeTop st).graph.vertexAt w = st.graph.vertexAt w ∧
    (∀ fuel, (skipExplored fuel st).graph.vertexAt w = st.graph.vertexAt w) ∧
    (∀ fuel, (dijkstraLoop fuel st).graph.vertexAt w = st.graph.vertexAt w) ∧
    (∀ fuel, ((dijkstraLoop fuel st).graph.vertexAt w).wasExplored = true) :=
  ⟨fun U e => relaxEdge_of_explored U st e w h, markTop_of_explored st w h,
    finalizeTop_of_explored st w h, fun fuel => by rw [skipExplored_graph],
    fun fuel => dijkstraLoop_of_explored w _ h fuel st rfl,
    fun fuel => by rw [dijkstraLoop_of_explored w _ h fuel st rfl]; exact h⟩

/-- Witness of C15: scenario A after the first iteration of the main loop, the vertex A. -/
theorem explored_vertex_frozen_witness :
    ((dijkstraLoop 1 (dijkstraInit scenarioA 0)).graph.vertexAt 0).wasExplored = true ∧
    ((∀ U e, (relaxEdge U (dijkstraLoop 1 (dijkstraInit scenarioA 0)) e).graph.vertexAt 0 =
        (dijkstraLoop 1 (dijkstraInit scenarioA 0)).graph.vertexAt 0) ∧
      (markTop (dijkstraLoop 1 (dijkstraInit scenarioA 0))).graph.vertexAt 0 =
        (dijkstraLoop 1 (dijkstraInit scenarioA 0)).graph.vertexAt 0 ∧
      (finalizeTop (dijkstraLoop 1 (dijkstraInit scenarioA 0))).graph.vertexAt 0 =
        (dijkstraLoop 1 (dijkstraInit scenarioA 0)).graph.vertexAt 0 ∧
      (∀ fuel, (skipExplored fuel (dijkstraLoop 1 (dijkstraInit scenarioA 0))).graph.vertexAt 0 =
        (dijkstraLoop 1 (dijkstraInit scenarioA 0)).graph.vertexAt 0) ∧
      (∀ fuel, (dijkstraLoop fuel (dijkstraLoop 1 (dijkstraInit scenarioA 0))).graph.vertexAt 0 =
        (dijkstraLoop 1 (dijkstraInit scenarioA 0)).graph.vertexAt 0) ∧
      (∀ fuel, ((dijkstraLoop fuel (dijkstraLoop 1 (dijkstraInit scenarioA 0))).graph.vertexAt
        0).wasExplored = true)) :=
  ⟨by decide, explored_vertex_frozen (dijkstraLoop 1 (dijkstraInit scenarioA 0)) 0 (by decide)⟩

theorem relaxEdge_distance_le (U : Nat) (st : RunState) (e : Edge) (w : Nat) :
    ((relaxEdge U st e).graph.vertexAt w).distance ≤ (st.graph.vertexAt w).distance := by
  rw [relaxEdge_vertexAt]
  split
  · rename_i h
    obtain ⟨hacc, hw, _⟩ := h
    rw [hw]
    exact hacc.2
  · exact Nat.le_refl _

theorem markTop_distance (st : RunState) (w : Nat) :
    ((markTop st).graph.vertexAt w).distance = (st.graph.vertexAt w).distance := by
  rw [markTop_vertexAt]
  split <;> rfl

theorem finalizeTop_distance_le (st : RunState) (w : Nat) :
    ((finalizeTop st).graph.vertexAt w).distance ≤ (st.graph.vertexAt w).distance := by
  unfold finalizeTop
  refine foldl_relaxEdge_induction _
    (fun t => (t.graph.vertexAt w).distance ≤ (st.graph.vertexAt w).distance) _ ?_ _
    (Nat.le_of_eq (markTop_distance st w))
  intro t e _ ht
  exact Nat.le_trans (relaxEdge_distance_le _ t e w) ht

theorem dijkstraLoop_distance_le (w d : Nat) (fuel : Nat) (st : RunState)
    (h : (st.graph.vertexAt w).distance ≤ d) :
    ((dijkstraLoop fuel st).graph.vertexAt w).distance ≤ d := by
  refine dijkstraLoop_induction (fun s => (s.graph.vertexAt w).distance ≤ d) ?_ ?_ ?_ fuel st h
  · intro s _ hs _
    exact hs
  · intro s hs _ _
    exact hs
  · intro s hs _ _ _
    exact Nat.le_trans (finalizeTop_distance_le s w) hs

/-- C16: from the state in which the main loop is entered on, no step raises the distance
of any vertex: a relaxation along any edge leaves it at most what it was, also when the
64-bit sum wraps around (the new value is written only if it does not exceed the old
one); finalizing the top and skipping explored entries leave it equal; hence any number of
iterations of the main loop leave it at most what it was. -/
theorem distance_never_increases (st : RunState) (w : Nat) :
    (∀ U e, ((relaxEdge U st e).graph.vertexAt w).distance ≤ (st.graph.vertexAt w).distance) ∧
    ((markTop st).graph.vertexAt w).distance = (st.graph.vertexAt w).distance ∧
    ((finalizeTop st).graph.vertexAt w).distance ≤ (st.graph.vertexAt w).distance ∧
    (∀ fuel, ((skipExplored fuel st).graph.vertexAt w).distance =
      (st.graph.vertexAt w).distance) ∧
    (∀ fuel, ((dijkstraLoop fuel st).graph.vertexAt w).distance ≤
      (st.graph.vertexAt w).distance) :=
  ⟨fun U e => relaxEdge_distance_le U st e w, markTop_distance st w,
    finalizeTop_distance_le st w, fun fuel => by rw [skipExplored_graph],
    fun fuel => dijkstraLoop_distance_le w _ fuel st (Nat.le_refl _)⟩

/-- C17: `compare_bc_pair(p1, p2)` is true exactly when the score of `p1` is strictly
larger than the score of `p2`, whatever the addresses; it is false for equal scores,
never true in both directions, and transitive; and in a sequence in which no element
compares before its predecessor (what sorting with it produces) every score is at least
every later score. -/
theorem compare_bc_pair_spec :
    (∀ (a1 a2 : String) (s1 s2 : ℚ), compare_bc_pair (a1, s1) (a2, s2) = true ↔ s2 < s1) ∧
    (∀ p1 p2 : String × ℚ, p1.2 = p2.2 → compare_bc_pair p1 p2 = false) ∧
    (∀ p1 p2 : String × ℚ, ¬ (compare_bc_pair p1 p2 = true ∧ compare_bc_pair p2 p1 = true)) ∧
    (∀ p1 p2 p3 : String × ℚ, compare_bc_pair p1 p2 = true → compare_bc_pair p2 p3 = true →
      compare_bc_pair p1 p3 = true) ∧
    (∀ l : List (String × ℚ), List.Chain' (fun a b => compare_bc_pair b a = false) l →
      List.Pairwise (fun a b => b.2 ≤ a.2) l) := by
  refine ⟨?_, ?_, ?_, ?_, ?_⟩
  · intro a1 a2 s1 s2
    simp [compare_bc_pair]
  · intro p1 p2 h
    simp [compare_bc_pair, h]
  · intro p1 p2 h
    simp only [compare_bc_pair, gt_iff_lt, decide_eq_true_eq] at h
    exact absurd h.1 (not_lt.mpr (le_of_lt h.2))
  · intro p1 p2 p3 h1 h2
    simp only [compare_bc_pair, gt_iff_lt, decide_eq_true_eq] at h1 h2 ⊢
    exact lt_trans h2 h1
  · intro l hl
    have hl2 : List.Chain' (fun a b : String × ℚ => b.2 ≤ a.2) l := by
      refine List.Chain'.imp ?_ hl
      intro a b hab
      simpa [compare_bc_pair] using hab
    haveI : IsTrans (String × ℚ) (fun a b => b.2 ≤ a.2) := ⟨fun a b c h1 h2 => le_trans h2 h1⟩
    exact List.chain'_iff_pairwise.mp hl2

/-! The points of a run -/

theorem ancestor_congr (g1 g2 : Graph)
    (h : ∀ v, (g1.vertexAt v).parent = (g2.vertexAt v).parent) :
    ∀ (k v : Nat), g1.ancestor k v = g2.ancestor k v
  | 0, _ => rfl
  | k + 1, v => by
    unfold Graph.ancestor
    rw [h v]
    cases (g2.vertexAt v).parent with
    | none => rfl
    | some p => exact ancestor_congr g1 g2 h k p

theorem ancestor_congr_explored (g1 g2 : Graph)
    (hclosed : ∀ V P, (g2.vertexAt V).parent = some P → (g2.vertexAt P).wasExplored = true)
    (h : ∀ v, (g2.vertexAt v).wasExplored = true →
      (g1.vertexAt v).parent = (g2.vertexAt v).parent) :
    ∀ (k v : Nat), (g2.vertexAt v).wasExplored = true → g1.ancestor k v = g2.ancestor k v
  | 0, _, _ => rfl
  | k + 1, v, hv => by
    unfold Graph.ancestor
    rw [h v hv]
    cases hp : (g2.vertexAt v).parent with
    | none => rfl
    | some p => exact ancestor_congr_explored g1 g2 hclosed h k p (hclosed v p hp)

theorem ancestor_succ_of_parent (g : Graph) (k v p : Nat)
    (h : (g.vertexAt v).parent = some p) : g.ancestor (k + 1) v = g.ancestor k p := by
  rw [Graph.ancestor, h]

theorem runInv_init (g : Graph) (S : Nat) (hS : S < g.vertices.length) :
    RunInv g S (dijkstraInit g S) := by
  have hexp : ∀ w, ((dijkstraInit g S).graph.vertexAt w).wasExplored = false := by
    intro w
    rw [dijkstraInit_vertexAt]
    split <;> rfl
  have hpar : ∀ w, ((dijkstraInit g S).graph.vertexAt w).parent = none := by
    intro w
    rw [dijkstraInit_vertexAt]
    split <;> rfl
  exact
    { len := dijkstraInit_length g S
      inc := fun w => by rw [dijkstraInit_vertexAt]; split <;> rfl
      range := fun x hx => by
        rw [dijkstraInit_queue] at hx
        rw [List.mem_singleton.mp hx]; exact hS
      qpar := fun x hx => by
        rw [dijkstraInit_queue] at hx
        exact Or.inl (List.mem_singleton.mp hx)
      epar := fun x hx => by rw [hexp x] at hx; simp at hx
      parentOk := fun V P hp => by rw [hpar V] at hp; simp at hp
      srcParent := hpar S
      start := Or.inr ⟨hexp, dijkstraInit_queue g S⟩
      orderNodup := by rw [dijkstraInit_order]; exact List.nodup_nil
      orderMem := fun v => by rw [dijkstraInit_order, hexp v]; simp
      orderHead := fun x hx => by rw [dijkstraInit_order] at hx; simp at hx
      chain := fun v hv => by rw [hexp v] at hv; simp at hv }

theorem runInv_skip (g : Graph) (S : Nat) (st : RunState) (h : RunInv g S st)
    (_hne : st.queue ≠ []) (hexp : (st.graph.vertexAt (heapTop st.queue)).wasExplored = true) :
    RunInv g S { st with queue := heapPop st.graph.key st.queue } :=
  { len := h.len, inc := h.inc
    range := fun x hx => h.range x (mem_of_mem_heapPop hx)
    qpar := fun x hx => h.qpar x (mem_of_mem_heapPop hx)
    epar := h.epar, parentOk := h.parentOk, srcParent := h.srcParent
    start := by
      rcases h.start with h1 | h1
      · exact Or.inl h1
      · rw [h1.1] at hexp; simp at hexp
    orderNodup := h.orderNodup, orderMem := h.orderMem, orderHead := h.orderHead
    chain := h.chain }

theorem runInv_halt (g : Graph) (S : Nat) (st : RunState) (s : RunStatus) (h : RunInv g S st)
    (hq : st.queue = []) : RunInv g S { st with status := s } :=
  { len := h.len, inc := h.inc, range := h.range, qpar := h.qpar, epar := h.epar
    parentOk := h.parentOk, srcParent := h.srcParent
    start := by
      rcases h.start with h1 | h1
      · exact Or.inl h1
      · rw [hq] at h1; simp at h1
    orderNodup := h.orderNodup, orderMem := h.orderMem, orderHead := h.orderHead
    chain := h.chain }

theorem runInv_mark (g : Graph) (S : Nat) (st : RunState) (h : RunInv g S st)
    (hne : st.queue ≠ []) (hexp : (st.graph.vertexAt (heapTop st.queue)).wasExplored = false) :
    RunInv g S (markTop st) := by
  have hUq : heapTop st.queue ∈ st.queue := heapTop_mem hne
  have hUlt : heapTop st.queue < st.graph.vertices.length := by
    rw [h.len]; exact h.range _ hUq
  have hexpl : ∀ x, ((markTop st).graph.vertexAt x).wasExplored = true ↔
      ((st.graph.vertexAt x).wasExplored = true ∨ x = heapTop st.queue) := by
    intro x
    rw [markTop_vertexAt]
    by_cases hx : x = heapTop st.queue
    · simp [hx, hUlt, Vertex.setExplored]
    · simp [hx]
  have hsame : ∀ x, ((markTop st).graph.vertexAt x).distance = (st.graph.vertexAt x).distance ∧
      ((markTop st).graph.vertexAt x).parent = (st.graph.vertexAt x).parent ∧
      ((markTop st).graph.vertexAt x).incidentEdges = (st.graph.vertexAt x).incidentEdges ∧
      ((markTop st).graph.vertexAt x).centralityParents =
        (st.graph.vertexAt x).centralityParents := by
    intro x
    rw [markTop_vertexAt]
    split <;> exact ⟨rfl, rfl, rfl, rfl⟩
  have hanc : ∀ k v, (markTop st).graph.ancestor k v = st.graph.ancestor k v :=
    ancestor_congr _ _ (fun v => (hsame v).2.1)
  have hUS : (∀ v, (st.graph.vertexAt v).wasExplored = false) → heapTop st.queue = S := by
    intro hnone
    rcases h.start with h1 | h1
    · rw [hnone S] at h1; simp at h1
    · rw [h1.2]; rfl
  exact
    { len := by rw [markTop_length]; exact h.len
      inc := fun w => by rw [(hsame w).2.2.1]; exact h.inc w
      range := fun x hx => h.range x (mem_of_mem_markTop_queue hx)
      qpar := fun x hx => by
        rw [(hsame x).2.1]; exact h.qpar x (mem_of_mem_markTop_queue hx)
      epar := fun x hx => by
        rw [(hsame x).2.1]
        rcases (hexpl x).mp hx with h1 | h1
        · exact h.epar x h1
        · rw [h1]; exact h.qpar _ hUq
      parentOk := fun V P hp => by
        rw [(hsame V).2.1] at hp
        obtain ⟨p1, p2, e, he, hadj, hd⟩ := h.parentOk V P hp
        refine ⟨(hexpl P).mpr (Or.inl p1), ?_, e, he, hadj, ?_⟩
        · rw [(hsame V).2.2.2]; exact p2
        · rw [(hsame V).1, (hsame P).1]; exact hd
      srcParent := by rw [(hsame S).2.1]; exact h.srcParent
      start := by
        left
        rcases h.start with h1 | h1
        · exact (hexpl S).mpr (Or.inl h1)
        · exact (hexpl S).mpr (Or.inr (hUS h1.1).symm)
      orderNodup := by
        rw [markTop_order]
        refine List.Nodup.append h.orderNodup (List.nodup_singleton _) ?_
        intro x hx1 hx2
        rw [List.mem_singleton.mp hx2] at hx1
        have := (h.orderMem _).mp hx1
        rw [hexp] at this
        simp at this
      orderMem := fun v => by
        rw [markTop_order, hexpl v, List.mem_append, List.mem_singleton, h.orderMem v]
      orderHead := fun x hx => by
        rw [markTop_order] at hx
        cases hord : st.graph.distanceOrderedVertices with
        | nil =>
          rw [hord] at hx
          simp at hx
          rw [← hx]
          apply hUS
          intro v
          have h1 := (h.orderMem v)
          rw [hord] at h1
          cases hv : (st.graph.vertexAt v).wasExplored with
          | false => rfl
          | true => exact absurd (h1.mpr hv) (by simp)
        | cons y t =>
          rw [hord] at hx
          simp at hx
          apply h.orderHead
          rw [hord, ← hx]
          rfl
      chain := fun v hv => by
        rcases (hexpl v).mp hv with h1 | h1
        · obtain ⟨k, hk⟩ := h.chain v h1
          exact ⟨k, by rw [hanc]; exact hk⟩
        · rcases h.qpar _ hUq with h2 | h2
          · exact ⟨0, by rw [h1, h2]; rfl⟩
          · cases hp : (st.graph.vertexAt (heapTop st.queue)).parent with
            | none => exact absurd hp h2
            | some p =>
              obtain ⟨k, hk⟩ := h.chain p (h.parentOk _ p hp).1
              refine ⟨k + 1, ?_⟩
              rw [hanc, h1, ancestor_succ_of_parent _ _ _ _ hp]
              exact hk }

theorem relaxEdge_of_not_accepts (U : Nat) (st : RunState) (e : Edge)
    (h : ¬ relaxAccepts U st e) : relaxEdge U st e = st := by
  unfold relaxAccepts at h
  by_cases h1 : (st.graph.vertexAt (e.getAdjacentVertex U)).wasExplored = true
  · simp [relaxEdge, h1]
  · have h2 : (st.graph.vertexAt (e.getAdjacentVertex U)).wasExplored = false := by
      simpa using h1
    have h3 : ¬ ((st.graph.vertexAt U).distance + e.gas) % UINT64_MOD ≤
        (st.graph.vertexAt (e.getAdjacentVertex U)).distance := fun h4 => h ⟨h2, h4⟩
    simp [relaxEdge, h1, h3]

theorem runInv_relax (g : Graph) (hwf : g.WellFormed) (S : Nat) (st : RunState) (U : Nat)
    (e : Edge) (h : RunInv g S st) (hU : (st.graph.vertexAt U).wasExplored = true)
    (he : e ∈ (st.graph.vertexAt U).incidentEdges) : RunInv g S (relaxEdge U st e) := by
  by_cases hacc : relaxAccepts U st e
  · have heg : e ∈ (g.vertexAt U).incidentEdges := by rw [← h.inc U]; exact he
    have hVlt : e.getAdjacentVertex U < st.graph.vertices.length := by
      rw [h.len]; exact adjacent_lt g hwf U e heg
    have hVU : U ≠ e.getAdjacentVertex U := by
      intro h0
      have h1 := hacc.1
      rw [← h0, hU] at h1
      simp at h1
    have hSexp : (st.graph.vertexAt S).wasExplored = true := by
      rcases h.start with h1 | h1
      · exact h1
      · rw [h1.1 U] at hU; simp at hU
    have hnew : (relaxEdge U st e).graph.vertexAt (e.getAdjacentVertex U) =
        relaxedVertex U st e := by
      rw [relaxEdge_vertexAt, if_pos ⟨hacc, rfl, hVlt⟩]
    have hold : ∀ w, w ≠ e.getAdjacentVertex U →
        (relaxEdge U st e).graph.vertexAt w = st.graph.vertexAt w := by
      intro w hw
      rw [relaxEdge_vertexAt, if_neg (fun h0 => hw h0.2.1)]
    have hexpl : ∀ w, (st.graph.vertexAt w).wasExplored = true →
        (relaxEdge U st e).graph.vertexAt w = st.graph.vertexAt w :=
      fun w hw => relaxEdge_of_explored U st e w hw
    have hflag := relaxEdge_wasExplored U st e
    exact
      { len := by rw [relaxEdge_length]; exact h.len
        inc := fun w => by rw [(relaxEdge_fixed U st e w).1]; exact h.inc w
        range := fun x hx => by
          rcases mem_relaxEdge_queue.mp hx with h1 | ⟨_, h1⟩
          · exact h.range x h1
          · rw [h1, ← h.len]; exact hVlt
        qpar := fun x hx => by
          by_cases hxV : x = e.getAdjacentVertex U
          · right
            rw [hxV, hnew]
            simp [relaxedVertex]
          · rw [hold x hxV]
            rcases mem_relaxEdge_queue.mp hx with h1 | ⟨_, h1⟩
            · exact h.qpar x h1
            · exact absurd h1 hxV
        epar := fun x hx => by
          rw [hflag] at hx
          rw [hexpl x hx]
          exact h.epar x hx
        parentOk := fun V P hp => by
          by_cases hVV : V = e.getAdjacentVertex U
          · rw [hVV, hnew] at hp
            have hPU : U = P := by simpa [relaxedVertex] using hp
            rw [← hPU, hVV, hnew, hexpl U hU]
            refine ⟨hU, ?_, e, heg, rfl, rfl⟩
            simp only [relaxedVertex]
            split
            · assumption
            · simp
          · rw [hold V hVV] at hp ⊢
            obtain ⟨p1, p2, e2, he2, hadj, hd⟩ := h.parentOk V P hp
            rw [hexpl P p1]
            exact ⟨p1, p2, e2, he2, hadj, hd⟩
        srcParent := by rw [hexpl S hSexp]; exact h.srcParent
        start := Or.inl (by rw [hflag]; exact hSexp)
        orderNodup := by rw [relaxEdge_order]; exact h.orderNodup
        orderMem := fun v => by rw [relaxEdge_order, hflag]; exact h.orderMem v
        orderHead := fun x hx => by rw [relaxEdge_order] at hx; exact h.orderHead x hx
        chain := fun v hv => by
          rw [hflag] at hv
          obtain ⟨k, hk⟩ := h.chain v hv
          refine ⟨k, ?_⟩
          rw [ancestor_congr_explored _ st.graph (fun V P hp => (h.parentOk V P hp).1)
            (fun w hw => by rw [hexpl w hw]) k v hv]
          exact hk }
  · rw [relaxEdge_of_not_accepts U st e hacc]
    exact h

theorem runInv_of_runPoint (g : Graph) (hwf : g.WellFormed) (S : Nat)
    (hS : S < g.vertices.length) (st : RunState) (h : RunPoint g S st) : RunInv g S st := by
  induction h with
  | init => exact runInv_init g S hS
  | skip st _ hne hexp ih => exact runInv_skip g S st ih hne hexp
  | mark st _ hne hexp ih => exact runInv_mark g S st ih hne hexp
  | relax st U e _ hU he ih => exact runInv_relax g hwf S st U e ih hU he
  | halt st s _ hq ih => exact runInv_halt g S st s ih hq

theorem runPoint_finalizeTop (g : Graph) (S : Nat) (st : RunState) (h : RunPoint g S st)
    (hne : st.queue ≠ []) (hexp : (st.graph.vertexAt (heapTop st.queue)).wasExplored = false)
    (hlt : heapTop st.queue < st.graph.vertices.length) :
    RunPoint g S (finalizeTop st) := by
  have hm : RunPoint g S (markTop st) := RunPoint.mark st h hne hexp
  have hUexp : ((markTop st).graph.vertexAt (heapTop st.queue)).wasExplored = true := by
    rw [markTop_vertexAt, if_pos ⟨rfl, hlt⟩]
    rfl
  have key : RunPoint g S (finalizeTop st) ∧
      (finalizeTop st).graph.vertexAt (heapTop st.queue) =
        (markTop st).graph.vertexAt (heapTop st.queue) := by
    unfold finalizeTop
    refine foldl_relaxEdge_induction _
      (fun t => RunPoint g S t ∧ t.graph.vertexAt (heapTop st.queue) =
        (markTop st).graph.vertexAt (heapTop st.queue)) _ ?_ _ ⟨hm, rfl⟩
    intro t e he ht
    obtain ⟨t1, t2⟩ := ht
    have hexp2 : (t.graph.vertexAt (heapTop st.queue)).wasExplored = true := by
      rw [t2]; exact hUexp
    refine ⟨RunPoint.relax t _ e t1 hexp2 (by rw [t2]; exact he), ?_⟩
    rw [relaxEdge_of_explored _ _ _ _ hexp2]
    exact t2
  exact key.1

theorem runPoint_dijkstraLoop (g : Graph) (hwf : g.WellFormed) (S : Nat)
    (hS : S < g.vertices.length) (fuel : Nat) (st : RunState) (h : RunPoint g S st) :
    RunPoint g S (dijkstraLoop fuel st) := by
  refine dijkstraLoop_induction (RunPoint g S) ?_ ?_ ?_ fuel st h
  · intro s x hs hq
    exact RunPoint.halt s x hs hq
  · intro s hs hne hexp
    exact RunPoint.skip s hs hne hexp
  · intro s hs _ hne hexp
    have hinv := runInv_of_runPoint g hwf S hS s hs
    exact runPoint_finalizeTop g S s hs hne hexp
      (by rw [hinv.len]; exact hinv.range _ (heapTop_mem hne))

theorem runPoint_dijkstra (g : Graph) (hwf : g.WellFormed) (S : Nat)
    (hS : S < g.vertices.length) : RunPoint g S (dijkstra g S) :=
  runPoint_dijkstraLoop g hwf S hS _ _ RunPoint.init

/-! The finalized order and the parent links -/

theorem dijkstra_source_explored (g : Graph) (hwf : g.WellFormed) (S : Nat)
    (hS : S < g.vertices.length) :
    (dijkstra g S).queue = [] ∧ ((dijkstra g S).graph.vertexAt S).wasExplored = true := by
  have hstop := dijkstra_stops g hwf S hS
  have hinv : ClosureInv g S (dijkstra g S) :=
    closureInv_loop g hwf S _ _ (closureInv_init g S hS)
  have hq : (dijkstra g S).queue = [] := hinv.stopped hstop
  refine ⟨hq, ?_⟩
  rcases hinv.src with h1 | h1
  · exact h1
  · rw [hq] at h1; simp at h1

theorem length_le_of_nodup_of_lt (l : List Nat) (n : Nat) (hnd : l.Nodup)
    (h : ∀ x ∈ l, x < n) : l.length ≤ n := by
  have hsub : l ⊆ List.range n := fun x hx => List.mem_range.mpr (h x hx)
  have := (List.subperm_of_subset hnd hsub).length_le
  simpa using this

/-- C19: on a well-formed graph and for a source `S` of it, after `dijkstra(g, S)` the
finalized order starts with `S`, has no vertex twice, and holds exactly the vertices with
`explored == true`; it is the same whatever finalized order the graph held before the
call, so that nothing recorded by an earlier run is in it. -/
theorem dijkstra_order_spec (g : Graph) (S : Nat) (hwf : g.WellFormed)
    (hS : S < g.vertices.length) :
    (dijkstra g S).graph.distanceOrderedVertices.head? = some S ∧
    (dijkstra g S).graph.distanceOrderedVertices.Nodup ∧
    (∀ v, v ∈ (dijkstra g S).graph.distanceOrderedVertices ↔
      ((dijkstra g S).graph.vertexAt v).wasExplored = true) ∧
    (∀ g2 : Graph, g2.vertices = g.vertices →
      (dijkstra g2 S).graph.distanceOrderedVertices =
        (dijkstra g S).graph.distanceOrderedVertices) := by
  have hinv := runInv_of_runPoint g hwf S hS _ (runPoint_dijkstra g hwf S hS)
  have hsrc := (dijkstra_source_explored g hwf S hS).2
  refine ⟨?_, hinv.orderNodup, hinv.orderMem, ?_⟩
  · have hmem : S ∈ (dijkstra g S).graph.distanceOrderedVertices := (hinv.orderMem S).mpr hsrc
    cases hord : (dijkstra g S).graph.distanceOrderedVertices with
    | nil => rw [hord] at hmem; simp at hmem
    | cons y t =>
      have := hinv.orderHead y (by rw [hord]; rfl)
      rw [this]
      rfl
  · intro g2 h2
    rw [dijkstra_congr g2 g S (by unfold Graph.fixedPart; rw [h2])]

/-- Witness of C19: scenario B run from A. -/
theorem dijkstra_order_spec_witness :
    scenarioB.WellFormed ∧ 0 < scenarioB.vertices.length ∧
    (dijkstra scenarioB 0).graph.distanceOrderedVertices.head? = some 0 ∧
    (dijkstra scenarioB 0).graph.distanceOrderedVertices.Nodup ∧
    (∀ v, v ∈ (dijkstra scenarioB 0).graph.distanceOrderedVertices ↔
      ((dijkstra scenarioB 0).graph.vertexAt v).wasExplored = true) ∧
    (∀ g2 : Graph, g2.vertices = scenarioB.vertices →
      (dijkstra g2 0).graph.distanceOrderedVertices =
        (dijkstra scenarioB 0).graph.distanceOrderedVertices) :=
  ⟨by decide, by decide, dijkstra_order_spec scenarioB 0 (by decide) (by decide)⟩

/-- C18: on a well-formed graph and for a source `S` of it, the end of the run is a point
of the run, and at every point of the run: a vertex `V` with parent `P` has `P` explored,
`P` among the centrality parents of `V`, and an edge `e` in the incident list of `P` with
`e.getAdjacentVertex(P) == V` and `V.distance == (P.distance + e.gas) mod 2^64`; the
source has no parent; and from every vertex that is explored or has a parent, following
parent links arrives at the source after finitely many steps. -/
theorem parent_links_consistent (g : Graph) (S : Nat) (hwf : g.WellFormed)
    (hS : S < g.vertices.length) :
    RunPoint g S (dijkstra g S) ∧
    ∀ st, RunPoint g S st →
      (∀ V P, (st.graph.vertexAt V).parent = some P →
        (st.graph.vertexAt P).wasExplored = true ∧
        P ∈ (st.graph.vertexAt V).centralityParents ∧
        ∃ e ∈ (st.graph.vertexAt P).incidentEdges, e.getAdjacentVertex P = V ∧
          (st.graph.vertexAt V).distance =
            ((st.graph.vertexAt P).distance + e.gas) % UINT64_MOD) ∧
      (st.graph.vertexAt S).parent = none ∧
      (∀ v, ((st.graph.vertexAt v).wasExplored = true ∨ (st.graph.vertexAt v).parent ≠ none) →
        ∃ k, st.graph.ancestor k v = some S) := by
  refine ⟨runPoint_dijkstra g hwf S hS, ?_⟩
  intro st hst
  have hinv := runInv_of_runPoint g hwf S hS st hst
  refine ⟨?_, hinv.srcParent, ?_⟩
  · intro V P hp
    obtain ⟨p1, p2, e, he, hadj, hd⟩ := hinv.parentOk V P hp
    exact ⟨p1, p2, e, by rw [hinv.inc P]; exact he, hadj, hd⟩
  · intro v hv
    rcases hv with hv | hv
    · exact hinv.chain v hv
    · cases hp : (st.graph.vertexAt v).parent with
      | none => exact absurd hp hv
      | some p =>
        obtain ⟨k, hk⟩ := hinv.chain p (hinv.parentOk v p hp).1
        exact ⟨k + 1, by rw [ancestor_succ_of_parent _ _ _ _ hp]; exact hk⟩

/-- Witness of C18: scenario A run from A. -/
theorem parent_links_consistent_witness :
    scenarioA.WellFormed ∧ 0 < scenarioA.vertices.length ∧
    RunPoint scenarioA 0 (dijkstra scenarioA 0) ∧
    ∀ st, RunPoint scenarioA 0 st →
      (∀ V P, (st.graph.vertexAt V).parent = some P →
        (st.graph.vertexAt P).wasExplored = true ∧
        P ∈ (st.graph.vertexAt V).centralityParents ∧
        ∃ e ∈ (st.graph.vertexAt P).incidentEdges, e.getAdjacentVertex P = V ∧
          (st.graph.vertexAt V).distance =
            ((st.graph.vertexAt P).distance + e.gas) % UINT64_MOD) ∧
      (st.graph.vertexAt 0).parent = none ∧
      (∀ v, ((st.graph.vertexAt v).wasExplored = true ∨ (st.graph.vertexAt v).parent ≠ none) →
        ∃ k, st.graph.ancestor k v = some 0) :=
  ⟨by decide, by decide, parent_links_consistent scenarioA 0 (by decide) (by decide)⟩

/-! Counting pushes -/

theorem relaxPushes_le_length (U : Nat) : ∀ (es : List Edge) (st : RunState),
    relaxPushes U st es ≤ es.length
  | [], _ => Nat.le_refl _
  | e :: es, st => by
    have ih := relaxPushes_le_length U es (relaxEdge U st e)
    simp only [relaxPushes, List.length_cons]
    split <;> omega

theorem length_queue_foldl_relaxEdge (U : Nat) : ∀ (es : List Edge) (st : RunState),
    (es.foldl (relaxEdge U) st).queue.length = st.queue.length + relaxPushes U st es
  | [], _ => rfl
  | e :: es, st => by
    rw [List.foldl_cons, length_queue_foldl_relaxEdge U es (relaxEdge U st e), relaxPushes,
      relaxEdge_queue]
    split
    · rw [length_heapPush]; omega
    · omega

theorem sum_map_set (f : Vertex → Nat) : ∀ (l : List Vertex) (i : Nat) (a : Vertex),
    i < l.length → ((l.set i a).map f).sum + f (l.getD i Vertex.blank) = (l.map f).sum + f a
  | [], _, _, h => absurd h (Nat.not_lt_zero _)
  | x :: l, 0, a, _ => by
    simp only [List.set_cons_zero, List.map_cons, List.sum_cons, List.getD_cons_zero]
    omega
  | x :: l, i + 1, a, h => by
    have ih := sum_map_set f l i a (Nat.lt_of_succ_lt_succ h)
    simp only [List.set_cons_succ, List.map_cons, List.sum_cons, List.getD_cons_succ]
    omega

theorem sum_map_congr (f1 f2 : Vertex → Nat) (g g2 : Graph)
    (hlen : g.vertices.length = g2.vertices.length)
    (h : ∀ w, f1 (g.vertexAt w) = f2 (g2.vertexAt w)) :
    (g.vertices.map f1).sum = (g2.vertices.map f2).sum := by
  have hmap : g.vertices.map f1 = g2.vertices.map f2 := by
    apply List.ext_getElem
    · simp [hlen]
    · intro i h1 h2
      have hi1 : i < g.vertices.length := by simpa using h1
      have hi2 : i < g2.vertices.length := by simpa using h2
      have e1 : g.vertexAt i = g.vertices[i] := by
        simp [Graph.vertexAt, List.getD_eq_getElem?_getD, List.getElem?_eq_getElem hi1]
      have e2 : g2.vertexAt i = g2.vertices[i] := by
        simp [Graph.vertexAt, List.getD_eq_getElem?_getD, List.getElem?_eq_getElem hi2]
      have := h i
      rw [e1, e2] at this
      simpa using this
  rw [hmap]

theorem unexploredIncident_relaxEdge (U : Nat) (st : RunState) (e : Edge) :
    (relaxEdge U st e).graph.unexploredIncident = st.graph.unexploredIncident := by
  unfold Graph.unexploredIncident
  apply sum_map_congr _ _ _ _ (relaxEdge_length U st e)
  intro w
  rw [relaxEdge_wasExplored, (relaxEdge_fixed U st e w).1]

theorem unexploredIncident_markTop (st : RunState)
    (hlt : heapTop st.queue < st.graph.vertices.length)
    (hexp : (st.graph.vertexAt (heapTop st.queue)).wasExplored = false) :
    (markTop st).graph.unexploredIncident +
        (st.graph.vertexAt (heapTop st.queue)).incidentEdges.length =
      st.graph.unexploredIncident := by
  have h := sum_map_set (fun v => if v.wasExplored then 0 else v.incidentEdges.length)
    st.graph.vertices (heapTop st.queue)
    ((st.graph.vertexAt (heapTop st.queue)).setExplored true) hlt
  have h1 : st.graph.vertices.getD (heapTop st.queue) Vertex.blank =
      st.graph.vertexAt (heapTop st.queue) := rfl
  rw [h1] at h
  simp only [hexp, Vertex.setExplored] at h
  unfold Graph.unexploredIncident
  have h2 : (markTop st).graph.vertices =
      st.graph.vertices.set (heapTop st.queue)
        ((st.graph.vertexAt (heapTop st.queue)).setExplored true) := rfl
  rw [h2]
  simpa [Vertex.setExplored] using h

theorem unexploredIncident_finalizeTop (st : RunState)
    (hlt : heapTop st.queue < st.graph.vertices.length)
    (hexp : (st.graph.vertexAt (heapTop st.queue)).wasExplored = false) :
    (finalizeTop st).graph.unexploredIncident +
        (st.graph.vertexAt (heapTop st.queue)).incidentEdges.length =
      st.graph.unexploredIncident := by
  have h : (finalizeTop st).graph.unexploredIncident = (markTop st).graph.unexploredIncident := by
    unfold finalizeTop
    exact foldl_relaxEdge_induction _
      (fun t => t.graph.unexploredIncident = (markTop st).graph.unexploredIncident) _
      (fun t e _ ht => by
        beta_reduce at ht ⊢
        rw [unexploredIncident_relaxEdge]
        exact ht) _ rfl
  rw [h]
  exact unexploredIncident_markTop st hlt hexp

theorem loopPushes_succ (fuel : Nat) (st : RunState) :
    loopPushes (fuel + 1) st =
      if st.queue.isEmpty then 0
      else if (skipExplored st.queue.length st).status = RunStatus.running then
        relaxPushes (heapTop (skipExplored st.queue.length st).queue)
            (markTop (skipExplored st.queue.length st))
            ((markTop (skipExplored st.queue.length st)).graph.vertexAt
              (heapTop (skipExplored st.queue.length st).queue)).incidentEdges +
          loopPushes fuel (finalizeTop (skipExplored st.queue.length st))
      else 0 := rfl

theorem loopPushes_le (g : Graph) (hwf : g.WellFormed) (S : Nat) :
    ∀ (fuel : Nat) (st : RunState), ClosureInv g S st →
      loopPushes fuel st ≤ st.graph.unexploredIncident
  | 0, _, _ => Nat.zero_le _
  | fuel + 1, st, h => by
    rw [loopPushes_succ]
    split
    · exact Nat.zero_le _
    · rename_i hemp
      have hne : st.queue ≠ [] := fun h0 => hemp (List.isEmpty_iff.mpr h0)
      split
      · rename_i hrun
        have h1 : ClosureInv g S (skipExplored st.queue.length st) :=
          skipExplored_induction (ClosureInv g S)
            (fun s x hs hq => closureInv_status g S s x hs hq)
            (fun s hs hne2 hexp => closureInv_pop g S s hs hne2 hexp) _ st h
        obtain ⟨_, hne1, hexp1⟩ := skipExplored_running _ st (Nat.le_refl _) hne hrun
        have hlt : heapTop (skipExplored st.queue.length st).queue <
            (skipExplored st.queue.length st).graph.vertices.length := by
          rw [h1.len]
          exact h1.range _ (heapTop_mem hne1)
        have hcnt := unexploredIncident_finalizeTop _ hlt hexp1
        have ih := loopPushes_le g hwf S fuel _
          (closureInv_finalizeTop g hwf S _ h1 hrun hne1 hexp1)
        have hrel := relaxPushes_le_length (heapTop (skipExplored st.queue.length st).queue)
          ((markTop (skipExplored st.queue.length st)).graph.vertexAt
            (heapTop (skipExplored st.queue.length st).queue)).incidentEdges
          (markTop (skipExplored st.queue.length st))
        have hinc : ((markTop (skipExplored st.queue.length st)).graph.vertexAt
            (heapTop (skipExplored st.queue.length st).queue)).incidentEdges =
            ((skipExplored st.queue.length st).graph.vertexAt
              (heapTop (skipExplored st.queue.length st).queue)).incidentEdges := by
          rw [markTop_vertexAt]
          split <;> rfl
        rw [hinc] at hrel ⊢
        rw [skipExplored_graph] at hcnt hrel ⊢
        omega
      · exact Nat.zero_le _

theorem unexploredIncident_init (g : Graph) (S : Nat) :
    (dijkstraInit g S).graph.unexploredIncident = g.incidentTotal := by
  unfold Graph.unexploredIncident Graph.incidentTotal
  apply sum_map_congr _ _ _ _ (dijkstraInit_length g S)
  intro w
  rw [dijkstraInit_vertexAt]
  split <;> rfl

/-- C11: on a well-formed graph and for a source `S` of it, `dijkstra(g, S)` ends: within
the allowed iterations of the main loop its status is no longer `running` and the queue is
empty; no vertex is finalized twice, so there are at most as many finalizing iterations as
vertices; and the number of queue pushes of the run is at most 1 plus the total length of
all incident-edge lists. -/
theorem dijkstra_terminates (g : Graph) (S : Nat) (hwf : g.WellFormed)
    (hS : S < g.vertices.length) :
    (dijkstra g S).status ≠ RunStatus.running ∧
    (dijkstra g S).queue = [] ∧
    (dijkstra g S).graph.distanceOrderedVertices.Nodup ∧
    (dijkstra g S).graph.distanceOrderedVertices.length ≤ g.vertices.length ∧
    dijkstraPushes g S ≤ 1 + g.incidentTotal := by
  have hinv := runInv_of_runPoint g hwf S hS _ (runPoint_dijkstra g hwf S hS)
  refine ⟨dijkstra_stops g hwf S hS, (dijkstra_source_explored g hwf S hS).1,
    hinv.orderNodup, ?_, ?_⟩
  · apply length_le_of_nodup_of_lt _ _ hinv.orderNodup
    intro x hx
    have hexp := (hinv.orderMem x).mp hx
    by_contra hlt
    rw [vertexAt_of_length_le _ x (by rw [hinv.len]; exact Nat.le_of_not_lt hlt)] at hexp
    simp [Vertex.blank] at hexp
  · unfold dijkstraPushes
    have h := loopPushes_le g hwf S (g.vertices.length + 1) _ (closureInv_init g S hS)
    rw [unexploredIncident_init] at h
    omega

/-- Witness of C11: scenario B run from A. -/
theorem dijkstra_terminates_witness :
    scenarioB.WellFormed ∧ 0 < scenarioB.vertices.length ∧
    (dijkstra scenarioB 0).status ≠ RunStatus.running ∧
    (dijkstra scenarioB 0).queue = [] ∧
    (dijkstra scenarioB 0).graph.distanceOrderedVertices.Nodup ∧
    (dijkstra scenarioB 0).graph.distanceOrderedVertices.length ≤ scenarioB.vertices.length ∧
    dijkstraPushes scenarioB 0 ≤ 1 + scenarioB.incidentTotal :=
  ⟨by decide, by decide, dijkstra_terminates scenarioB 0 (by decide) (by decide)⟩

/-! No wrap-around under a bound on the total gas -/

theorem gasWithin_le_total (inside : Nat → Bool) : ∀ (E : List Edge),
    gasWithin E inside ≤ walkGas E
  | [] => Nat.le_refl _
  | e :: E => by
    have ih := gasWithin_le_total inside E
    unfold gasWithin walkGas at ih ⊢
    simp only [List.filter_cons, List.map_cons, List.sum_cons]
    split
    · simp only [List.map_cons, List.sum_cons]; omega
    · omega

theorem gasWithin_mono (p q : Nat → Bool) (h : ∀ w, p w = true → q w = true) :
    ∀ (E : List Edge), gasWithin E p ≤ gasWithin E q
  | [] => Nat.le_refl _
  | e :: E => by
    have ih := gasWithin_mono p q h E
    unfold gasWithin at ih ⊢
    simp only [List.filter_cons]
    by_cases hp : (p e.source && p e.destination) = true
    · have hq : (q e.source && q e.destination) = true := by
        simp only [Bool.and_eq_true] at hp ⊢
        exact ⟨h _ hp.1, h _ hp.2⟩
      rw [if_pos hp, if_pos hq]
      simp only [List.map_cons, List.sum_cons]
      omega
    · rw [if_neg hp]
      split
      · simp only [List.map_cons, List.sum_cons]; omega
      · exact ih

theorem gasWithin_add (p q : Nat → Bool) (h : ∀ w, p w = true → q w = true) (e : Edge)
    (hq : (q e.source && q e.destination) = true)
    (hp : ¬ (p e.source && p e.destination) = true) :
    ∀ (E : List Edge), e ∈ E → gasWithin E p + e.gas ≤ gasWithin E q
  | [], he => by simp at he
  | x :: E, he => by
    by_cases hx : e = x
    · subst hx
      have hm := gasWithin_mono p q h E
      unfold gasWithin at hm ⊢
      simp only [List.filter_cons]
      rw [if_neg hp, if_pos hq]
      simp only [List.map_cons, List.sum_cons]
      omega
    · have he2 : e ∈ E := by
        rcases List.mem_cons.mp he with h1 | h1
        · exact absurd h1 hx
        · exact h1
      have ih := gasWithin_add p q h e hq hp E he2
      unfold gasWithin at ih ⊢
      simp only [List.filter_cons]
      by_cases hpx : (p x.source && p x.destination) = true
      · have hqx : (q x.source && q x.destination) = true := by
          simp only [Bool.and_eq_true] at hpx ⊢
          exact ⟨h _ hpx.1, h _ hpx.2⟩
        rw [if_pos hpx, if_pos hqx]
        simp only [List.map_cons, List.sum_cons]
        omega
      · rw [if_neg hpx]
        split
        · simp only [List.map_cons, List.sum_cons]; omega
        · exact ih

theorem candidate_le_gasWithin (g : Graph) (hinc : g.IncidentToOwner) (E : List Edge)
    (hE : ∀ v e, e ∈ (g.vertexAt v).incidentEdges → e ∈ E) (st : RunState)
    (hincst : ∀ w, (st.graph.vertexAt w).incidentEdges = (g.vertexAt w).incidentEdges)
    (U : Nat) (e : Edge) (hU : (st.graph.vertexAt U).wasExplored = true)
    (he : e ∈ (st.graph.vertexAt U).incidentEdges)
    (hV : (st.graph.vertexAt (e.getAdjacentVertex U)).wasExplored = false)
    (hdU : (st.graph.vertexAt U).distance ≤ gasWithin E (exploredOr st U)) :
    (st.graph.vertexAt U).distance + e.gas ≤
      gasWithin E (exploredOr st (e.getAdjacentVertex U)) := by
  have heg : e ∈ (g.vertexAt U).incidentEdges := by rw [← hincst U]; exact he
  have hends := hinc U e heg
  have hUV : U ≠ e.getAdjacentVertex U := by
    intro h0
    rw [← h0, hU] at hV
    simp at hV
  have hmono : ∀ w, exploredOr st U w = true →
      exploredOr st (e.getAdjacentVertex U) w = true := by
    intro w hw
    unfold exploredOr at hw ⊢
    simp only [Bool.or_eq_true, decide_eq_true_eq] at hw ⊢
    rcases hw with hw | hw
    · exact Or.inl hw
    · rw [hw]; exact Or.inl hU
  have hUin : exploredOr st (e.getAdjacentVertex U) U = true := by
    unfold exploredOr
    simp [hU]
  have hVin : exploredOr st (e.getAdjacentVertex U) (e.getAdjacentVertex U) = true := by
    unfold exploredOr
    simp
  have hVout : exploredOr st U (e.getAdjacentVertex U) = false := by
    have hne : ¬ e.getAdjacentVertex U = U := fun h0 => hUV h0.symm
    unfold exploredOr
    simp [hV, hne]
  have hq : (exploredOr st (e.getAdjacentVertex U) e.source &&
      exploredOr st (e.getAdjacentVertex U) e.destination) = true := by
    simp only [Bool.and_eq_true]
    by_cases hs : U = e.source
    · have hadj : e.getAdjacentVertex U = e.destination := by
        simp [Edge.getAdjacentVertex, hs]
      rw [← hs]
      refine ⟨hUin, ?_⟩
      rw [← hadj]
      exact hVin
    · have hadj : e.getAdjacentVertex U = e.source := by
        simp [Edge.getAdjacentVertex, hs]
      have hd : e.destination = U := by
        rcases hends with h1 | h1
        · exact absurd h1.symm hs
        · exact h1
      rw [hd]
      refine ⟨?_, hUin⟩
      rw [← hadj]
      exact hVin
  have hp : ¬ (exploredOr st U e.source && exploredOr st U e.destination) = true := by
    simp only [Bool.and_eq_true]
    by_cases hs : U = e.source
    · have hadj : e.getAdjacentVertex U = e.destination := by
        simp [Edge.getAdjacentVertex, hs]
      rw [← hadj, hVout]
      simp
    · have hadj : e.getAdjacentVertex U = e.source := by
        simp [Edge.getAdjacentVertex, hs]
      rw [← hadj, hVout]
      simp
  have := gasWithin_add _ _ hmono e hq hp E (hE U e heg)
  omega

theorem gasBound_of_runPoint (g : Graph) (hwf : g.WellFormed) (hinc : g.IncidentToOwner)
    (S : Nat) (hS : S < g.vertices.length) (E : List Edge)
    (hE : ∀ v e, e ∈ (g.vertexAt v).incidentEdges → e ∈ E)
    (st : RunState) (h : RunPoint g S st) :
    ∀ v, ((st.graph.vertexAt v).wasExplored = true ∨ v = S ∨
        (st.graph.vertexAt v).parent ≠ none) →
      (st.graph.vertexAt v).distance ≤ gasWithin E (exploredOr st v) := by
  induction h with
  | init =>
    intro v hv
    have hexp : ∀ w, ((dijkstraInit g S).graph.vertexAt w).wasExplored = false := by
      intro w
      rw [dijkstraInit_vertexAt]
      split <;> rfl
    have hpar : ∀ w, ((dijkstraInit g S).graph.vertexAt w).parent = none := by
      intro w
      rw [dijkstraInit_vertexAt]
      split <;> rfl
    have hvS : v = S := by
      rcases hv with h1 | h1 | h1
      · rw [hexp v] at h1; simp at h1
      · exact h1
      · exact absurd (hpar v) h1
    have hd : ((dijkstraInit g S).graph.vertexAt v).distance = 0 := by
      rw [dijkstraInit_vertexAt, if_pos ⟨hvS, hS⟩]
      rfl
    rw [hd]
    exact Nat.zero_le _
  | skip st _ _ _ ih => exact ih
  | halt st s _ _ ih => exact ih
  | mark st hst hne hexp ih =>
    intro v hv
    have hinv := runInv_of_runPoint g hwf S hS st hst
    have hUq : heapTop st.queue ∈ st.queue := heapTop_mem hne
    have hflag : ∀ w, (st.graph.vertexAt w).wasExplored = true →
        ((markTop st).graph.vertexAt w).wasExplored = true := by
      intro w hw
      rw [markTop_of_explored st w hw]; exact hw
    have hsame : ((markTop st).graph.vertexAt v).distance = (st.graph.vertexAt v).distance ∧
        ((markTop st).graph.vertexAt v).parent = (st.graph.vertexAt v).parent := by
      rw [markTop_vertexAt]
      split <;> exact ⟨rfl, rfl⟩
    have hold : (st.graph.vertexAt v).wasExplored = true ∨ v = S ∨
        (st.graph.vertexAt v).parent ≠ none := by
      by_cases hvU : v = heapTop st.queue
      · rw [hvU]
        exact Or.inr (hinv.qpar _ hUq)
      · rcases hv with h1 | h1 | h1
        · left
          rw [markTop_vertexAt, if_neg (fun h0 => hvU h0.1)] at h1
          exact h1
        · exact Or.inr (Or.inl h1)
        · rw [hsame.2] at h1
          exact Or.inr (Or.inr h1)
    rw [hsame.1]
    refine Nat.le_trans (ih v hold) (gasWithin_mono _ _ ?_ E)
    intro w hw
    unfold exploredOr at hw ⊢
    simp only [Bool.or_eq_true, decide_eq_true_eq] at hw ⊢
    rcases hw with hw | hw
    · exact Or.inl (hflag w hw)
    · exact Or.inr hw
  | relax st U e hst hU he ih =>
    intro v hv
    have hinv := runInv_of_runPoint g hwf S hS st hst
    by_cases hacc : relaxAccepts U st e
    · have hpred : exploredOr (relaxEdge U st e) v = exploredOr st v := by
        funext w
        unfold exploredOr
        rw [relaxEdge_wasExplored]
      rw [hpred]
      have hcand := candidate_le_gasWithin g hinc E hE st hinv.inc U e hU he hacc.1
        (ih U (Or.inl hU))
      by_cases hvV : v = e.getAdjacentVertex U
      · have hVlt : e.getAdjacentVertex U < st.graph.vertices.length := by
          rw [hinv.len]
          exact adjacent_lt g hwf U e (by rw [← hinv.inc U]; exact he)
        rw [hvV, relaxEdge_vertexAt, if_pos ⟨hacc, rfl, hVlt⟩]
        simp only [relaxedVertex]
        exact Nat.le_trans (Nat.mod_le _ _) hcand
      · rw [relaxEdge_vertexAt, if_neg (fun h0 => hvV h0.2.1)] at hv ⊢
        exact ih v hv
    · rw [relaxEdge_of_not_accepts U st e hacc] at hv ⊢
      exact ih v hv

/-- C20: on a well-formed graph whose incident lists hold edges incident to their owner,
for a source `S` of it, and for any list `E` that holds every incident edge and whose
total gas, as a natural number, is below the infinite sentinel: at every point of the run
(the end of the run is one), every candidate `U.distance + edge.gas` computed for an
explored `U` and an unexplored neighbour is below the sentinel as a natural number, so it
equals the 64-bit sum: the addition does not wrap. -/
theorem candidate_never_wraps (g : Graph) (S : Nat) (E : List Edge) (hwf : g.WellFormed)
    (hinc : g.IncidentToOwner) (hS : S < g.vertices.length)
    (hE : ∀ v e, e ∈ (g.vertexAt v).incidentEdges → e ∈ E)
    (hsum : walkGas E < INFINITE_DISTANCE) :
    RunPoint g S (dijkstra g S) ∧
    ∀ st, RunPoint g S st → ∀ U e, (st.graph.vertexAt U).wasExplored = true →
      e ∈ (st.graph.vertexAt U).incidentEdges →
      (st.graph.vertexAt (e.getAdjacentVertex U)).wasExplored = false →
      (st.graph.vertexAt U).distance + e.gas < INFINITE_DISTANCE ∧
      ((st.graph.vertexAt U).distance + e.gas) % UINT64_MOD =
        (st.graph.vertexAt U).distance + e.gas := by
  refine ⟨runPoint_dijkstra g hwf S hS, ?_⟩
  intro st hst U e hU he hV
  have hinv := runInv_of_runPoint g hwf S hS st hst
  have hb := gasBound_of_runPoint g hwf hinc S hS E hE st hst U (Or.inl hU)
  have hcand := candidate_le_gasWithin g hinc E hE st hinv.inc U e hU he hV hb
  have htot := gasWithin_le_total (exploredOr st (e.getAdjacentVertex U)) E
  have hlt : (st.graph.vertexAt U).distance + e.gas < INFINITE_DISTANCE := by omega
  refine ⟨hlt, Nat.mod_eq_of_lt ?_⟩
  unfold INFINITE_DISTANCE at hlt
  unfold UINT64_MOD
  omega

/-- Witness of C13: scenario A, the source A just finalized, the edge A->B (gas 5). -/
theorem relaxEdge_step_witness :
    ((markTop (dijkstraInit scenarioA 0)).graph.vertexAt 0).wasExplored = true ∧
    (transaction 0 1 5).getAdjacentVertex 0 <
      (markTop (dijkstraInit scenarioA 0)).graph.vertices.length ∧
    ((relaxEdge 0 (markTop (dijkstraInit scenarioA 0)) (transaction 0 1 5)).graph.vertexAt
        ((transaction 0 1 5).getAdjacentVertex 0)).distance =
      (((markTop (dijkstraInit scenarioA 0)).graph.vertexAt 0).distance +
        (transaction 0 1 5).gas) % UINT64_MOD ∧
    ((relaxEdge 0 (markTop (dijkstraInit scenarioA 0)) (transaction 0 1 5)).graph.vertexAt
        ((transaction 0 1 5).getAdjacentVertex 0)).parent = some 0 ∧
    ((relaxEdge 0 (markTop (dijkstraInit scenarioA 0)) (transaction 0 1 5)).graph.vertexAt
        ((transaction 0 1 5).getAdjacentVertex 0)).centrality =
      ((markTop (dijkstraInit scenarioA 0)).graph.vertexAt
          ((transaction 0 1 5).getAdjacentVertex 0)).centrality +
        ((markTop (dijkstraInit scenarioA 0)).graph.vertexAt 0).centrality :=
  ⟨by decide, by decide,
    (((relaxEdge_step 0 (markTop (dijkstraInit scenarioA 0)) (transaction 0 1 5)
      (by decide) (by decide)).1 ⟨by decide, by decide⟩).1),
    (((relaxEdge_step 0 (markTop (dijkstraInit scenarioA 0)) (transaction 0 1 5)
      (by decide) (by decide)).1 ⟨by decide, by decide⟩).2.1),
    (((relaxEdge_step 0 (markTop (dijkstraInit scenarioA 0)) (transaction 0 1 5)
      (by decide) (by decide)).1 ⟨by decide, by decide⟩).2.2.2.1 (by decide))⟩

theorem forall_vertexAt_of_forall_lt (g : Graph) (P : Nat → Edge → Prop)
    (h : ∀ v < g.vertices.length, ∀ e ∈ (g.vertexAt v).incidentEdges, P v e) :
    ∀ v e, e ∈ (g.vertexAt v).incidentEdges → P v e := by
  intro v e he
  by_cases hv : v < g.vertices.length
  · exact h v hv e he
  · rw [vertexAt_of_length_le g v (Nat.le_of_not_lt hv)] at he
    simp [Vertex.blank] at he

theorem scenarioAUndirected_incident : scenarioAUndirected.IncidentToOwner :=
  forall_vertexAt_of_forall_lt scenarioAUndirected (fun v e => e.source = v ∨ e.destination = v)
    (by decide)

theorem scenarioAUndirected_edges : ∀ v e, e ∈ (scenarioAUndirected.vertexAt v).incidentEdges →
    e ∈ [transaction 0 1 5, transaction 1 2 3, transaction 0 2 10] :=
  forall_vertexAt_of_forall_lt scenarioAUndirected
    (fun _ e => e ∈ [transaction 0 1 5, transaction 1 2 3, transaction 0 2 10]) (by decide)

/-- Witness of C20: scenario A with each edge in the incident lists of both endpoints,
its three edges (total gas 18), run from A. -/
theorem candidate_never_wraps_witness :
    scenarioAUndirected.WellFormed ∧ scenarioAUndirected.IncidentToOwner ∧
    0 < scenarioAUndirected.vertices.length ∧
    (∀ v e, e ∈ (scenarioAUndirected.vertexAt v).incidentEdges →
      e ∈ [transaction 0 1 5, transaction 1 2 3, transaction 0 2 10]) ∧
    walkGas [transaction 0 1 5, transaction 1 2 3, transaction 0 2 10] < INFINITE_DISTANCE ∧
    RunPoint scenarioAUndirected 0 (dijkstra scenarioAUndirected 0) ∧
    ∀ st, RunPoint scenarioAUndirected 0 st → ∀ U e,
      (st.graph.vertexAt U).wasExplored = true →
      e ∈ (st.graph.vertexAt U).incidentEdges →
      (st.graph.vertexAt (e.getAdjacentVertex U)).wasExplored = false →
      (st.graph.vertexAt U).distance + e.gas < INFINITE_DISTANCE ∧
      ((st.graph.vertexAt U).distance + e.gas) % UINT64_MOD =
        (st.graph.vertexAt U).distance + e.gas :=
  ⟨by decide, scenarioAUndirected_incident, by decide, scenarioAUndirected_edges, by decide,
    candidate_never_wraps scenarioAUndirected 0
      [transaction 0 1 5, transaction 1 2 3, transaction 0 2 10] (by decide)
      scenarioAUndirected_incident (by decide) scenarioAUndirected_edges (by decide)⟩

end GraphThereum
